import Mathlib

/-!
Verification of the stack-pr stack synchronization engine
(`src/stack_pr/cli.py`) against its natural-language specification.

Python strings are modelled as `List Char`; every modelled function is
translated from the source file `cli.py`.  The two external ports (git
and the GitHub CLI) are modelled as a `World` structure of response
functions, and the four top-level commands are modelled as functions
that return the ordered list of external calls (`Eff`) they would issue
together with their outcome.  Fallible Python operations (attribute
reads of unset optional fields, `list[i]` on a too-short list,
`int(...)` on a non-numeric string) are modelled with `Option`.
-/

namespace StackPr

/-! ## Basic character-list utilities -/

/-- Longest prefix of `l` before the first newline (the "current line"
as seen by the `.` metacharacter of a MULTILINE Python regex). -/
def takeLine : List Char → List Char
  | [] => []
  | c :: rest => if c = '\n' then [] else c :: takeLine rest

/-- Drop the first line of `l` together with its terminating newline
(everything up to and including the first `'\n'`); result is `[]` if
`l` has no newline. -/
def dropWithLine : List Char → List Char
  | [] => []
  | c :: rest => if c = '\n' then rest else dropWithLine rest

/-- Python `str.splitlines()` for `'\n'`-separated text: split at every
newline, with no trailing empty line for a trailing newline. -/
def splitLinesAux : List Char → List Char → List (List Char)
  | [], acc => if acc.isEmpty then [] else [acc.reverse]
  | c :: rest, acc =>
    if c = '\n' then acc.reverse :: splitLinesAux rest []
    else splitLinesAux rest (c :: acc)

def splitLines (l : List Char) : List (List Char) := splitLinesAux l []

/-- The single-quote character, written via its code point. -/
def quoteChar : Char := Char.ofNat 39

/-- Python `str.strip("'")`: remove all leading and trailing single
quotes. -/
def stripQuotes (l : List Char) : List Char :=
  ((l.dropWhile (fun c => c = quoteChar)).reverse.dropWhile
    (fun c => c = quoteChar)).reverse

/-- Does `l` contain a `'/'`? -/
def hasSlash (l : List Char) : Bool := l.contains '/'

/-- Component of `l` after its last `'/'` (the whole of `l` when there
is no slash); used below only guarded by `hasSlash`. -/
def afterLastSlash (l : List Char) : List Char :=
  (l.reverse.takeWhile (fun c => c ≠ '/')).reverse

/-- Part of `l` before its last `'/'`. -/
def beforeLastSlash (l : List Char) : List Char :=
  ((l.reverse.dropWhile (fun c => c ≠ '/')).drop 1).reverse

/-- Python `last(ref)` from cli.py: `ref.rsplit("/", 1)[1]`.  The index
`[1]` raises `IndexError` when `ref` has no slash, hence the `Option`. -/
def lastSlashComp (ref : List Char) : Option (List Char) :=
  if hasSlash ref then some (afterLastSlash ref) else none

/-- Python `str.isnumeric()` restricted to ASCII decimal digits (the
only alphabet this model uses): nonempty and all digits. -/
def isnumeric (l : List Char) : Bool := !l.isEmpty && l.all Char.isDigit

/-- Numeric value of an ASCII digit string, the model of Python
`int(...)` on strings accepted by `isnumeric`. -/
def parseNat (l : List Char) : Nat :=
  l.foldl (fun a c => 10 * a + (c.toNat - 48)) 0

/-- Python `int(...)` as a partial function: defined exactly on digit
strings (the model's alphabet for numbers). -/
def parseNatQ (l : List Char) : Option Nat :=
  if isnumeric l then some (parseNat l) else none

/-- Decimal digit character for `d < 10`. -/
def digitChar (d : Nat) : Char := Char.ofNat (48 + d)

/-- Decimal digits of `n`, most significant first, with explicit fuel so
that the definition is structurally recursive and kernel-evaluable. -/
def natDigitsFuel : Nat → Nat → List Char
  | 0, _ => []
  | fuel + 1, n =>
    if n < 10 then [digitChar n]
    else natDigitsFuel fuel (n / 10) ++ [digitChar (n % 10)]

/-- Decimal representation of `n` (the model of Python `f"{n}"`). -/
def natDigits (n : Nat) : List Char := natDigitsFuel (n + 1) n

/-! ## Metadata codec: the fixed regex `RE_STACK_INFO_LINE`

cli.py line 76: `re.compile(r"\n^stack-info: PR: (.+), branch: (.+)\n?", re.MULTILINE)`.

A match consists of one `'\n'`, followed by a complete line of the form
`stack-info: PR: <X>, branch: <Y>` with `X` and `Y` nonempty and
newline-free, followed by the line's terminating newline if present.
Because both groups are greedy, `Y` extends to the end of the line and
`X` extends to the rightmost occurrence of `", branch: "` that leaves a
nonempty `Y`. -/

def prLabel : List Char := "stack-info: PR: ".data

def brSep : List Char := ", branch: ".data

/-- Greedy split of the text after `stack-info: PR: ` at the rightmost
occurrence of `", branch: "` followed by at least one character; models
the backtracking of the two greedy groups (the first component may be
empty here, which the caller rejects, since group 1 needs `≥ 1` char). -/
def sepSplitLast : List Char → Option (List Char × List Char)
  | [] => none
  | c :: rest =>
    match sepSplitLast rest with
    | some (x, y) => some (c :: x, y)
    | none =>
      if brSep.isPrefixOf (c :: rest) ∧ (c :: rest).drop brSep.length ≠ [] then
        some ([], (c :: rest).drop brSep.length)
      else none

/-- Group extraction on a single (newline-free) line: the line matches
`stack-info: PR: (.+), branch: (.+)` anchored at its start. -/
def lineGroups (line : List Char) : Option (List Char × List Char) :=
  if prLabel.isPrefixOf line then
    match sepSplitLast (line.drop prLabel.length) with
    | some (x, y) => if x ≠ [] then some (x, y) else none
    | none => none
  else none

/-- Model of `RE_STACK_INFO_LINE.search(m)` returning the two groups:
the leftmost newline followed by a matching line. -/
def stackInfoSearch : List Char → Option (List Char × List Char)
  | [] => none
  | c :: rest =>
    if c = '\n' then
      match lineGroups (takeLine rest) with
      | some g => some g
      | none => stackInfoSearch rest
    else stackInfoSearch rest

/-- Model of `RE_STACK_INFO_LINE.sub("", m)`: remove every
(non-overlapping, left-to-right) match span, each span being the
leading newline, the matched line, and its trailing newline when
present.  Fuel keeps the recursion structural; `stackInfoSub` supplies
enough fuel for the whole input. -/
def stackInfoSubFuel : Nat → List Char → List Char
  | 0, l => l
  | fuel + 1, l =>
    match l with
    | [] => []
    | c :: rest =>
      if c = '\n' then
        match lineGroups (takeLine rest) with
        | some _ => stackInfoSubFuel fuel (dropWithLine rest)
        | none => c :: stackInfoSubFuel fuel rest
      else c :: stackInfoSubFuel fuel rest

def stackInfoSub (l : List Char) : List Char := stackInfoSubFuel l.length l

/-- The metadata line `stack-info: PR: <pr>, branch: <head>`. -/
def metaLine (pr head : List Char) : List Char := prLabel ++ pr ++ brSep ++ head

/-- Message transformation of `add_or_update_metadata` (cli.py
491-516): when the message already matches `RE_STACK_INFO_LINE` the
commit is skipped and the message kept; otherwise
`"\n\nstack-info: PR: {pr}, branch: {head}"` is appended and the commit
amended. -/
def add_or_update_metadata_msg (m pr head : List Char) : List Char :=
  match stackInfoSearch m with
  | some _ => m
  | none => m ++ '\n' :: '\n' :: metaLine pr head

/-- Message transformation of `strip_metadata` (cli.py 1005-1014):
`RE_STACK_INFO_LINE.sub("", m)`. -/
def strip_metadata_msg (m : List Char) : List Char := stackInfoSub m

/-! ## Data model

`CommitHeader` is modelled at the git-port boundary: the batched
`git rev-list --header` export is parsed by the out-of-scope Commit
Header Model, so the port returns structured records with the commit id
and the commit message (`commit_msg()`), from which `title()` is the
first message line. -/

structure CommitHeader where
  commit_id : List Char
  msg : List Char
deriving DecidableEq, Repr

def CommitHeader.title (c : CommitHeader) : List Char := takeLine c.msg

/-- Stack entry (cli.py 220-304): a commit plus three optional linkage
fields; reading an unset field raises in Python, which the model
surfaces by pattern-matching on the `Option`. -/
structure StackEntry where
  commit : CommitHeader
  pr : Option (List Char) := none
  base : Option (List Char) := none
  head : Option (List Char) := none
deriving DecidableEq, Repr

/-- `StackEntry.has_missing_info` (cli.py 269-270):
`None in (self._pr, self._head, self._base)`. -/
def has_missing_info (e : StackEntry) : Bool :=
  e.pr.isNone || e.head.isNone || e.base.isNone

/-- `StackEntry.read_metadata` (cli.py 298-304): if the commit message
matches `RE_STACK_INFO_LINE`, set `pr` and `head` from the two groups;
`base` is never touched. -/
def read_metadata (e : StackEntry) : StackEntry :=
  match stackInfoSearch e.commit.msg with
  | none => e
  | some (p, h) => { e with pr := some p, head := some h }

/-- Pure core of `get_stack` (cli.py 394-416): reverse the newest-first
commit export, wrap each commit in a fresh entry, and run
`read_metadata` on every entry.  (The ancestry precheck and the git
calls live in the traced `get_stack_w` below.) -/
def get_stack_entries (commits : List CommitHeader) : List StackEntry :=
  (commits.reverse.map (fun c => StackEntry.mk c none none none)).map
    read_metadata

/-- `set_base_branches` (cli.py 419-422): thread `prev_branch` through
the stack, starting at `target`; note that the Python code assigns
`e._head` (which may be `None`) to the running variable, so the model
threads the raw `Option`. -/
def set_base_branches_go :
    List StackEntry → Option (List Char) → List StackEntry
  | [], _ => []
  | e :: rest, prev => { e with base := prev } :: set_base_branches_go rest e.head

def set_base_branches (st : List StackEntry) (target : List Char) :
    List StackEntry :=
  set_base_branches_go st (some target)

/-! ## External calls

Every call the engine makes through the git port or the PR-host port is
recorded as an `Eff`; command models return the ordered list of calls
they would issue. -/

inductive Eff where
  | gitFetchPrune (remote : List Char)
  | gitCheckout (ref : List Char)
  | gitCheckoutB (ref branch : List Char)
  | gitPush (remote : List Char) (branches : List (List Char))
  | gitPushDelete (remote : List Char) (branches : List (List Char))
  | gitRebase (onto branch : List Char)
  | gitCommitAmend (msg : List Char)
  | gitBranchDeleteLocal (branches : List (List Char))
  | ghPrCreate (base head title : List Char) (draft : Bool)
  | ghPrEditBase (pr target : List Char)
  | ghPrEditFull (pr title body target : List Char)
  | ghPrMerge (pr title body : List Char)
  | gitIsAncestorQ (a b : List Char)
  | gitRevParseQ (ref : List Char)
  | gitRevListQ (base head : List Char)
  | gitForEachRefQ (pfx : List Char)
  | gitBranchExistsQ (branch : List Char)
  | gitCurrentBranchQ
  | ghUserQ
  | ghPrViewQ (pr : List Char)
deriving DecidableEq, Repr

/-- Mutating external calls, following the claim's own enumeration
(branch creation or reset, push, PR creation/edit/merge, deletion) plus
the other state-changing git operations the engine uses (rebase, amend,
checkout); queries and `git fetch --prune` (which only refreshes the
remote-tracking mirror) are reads. -/
def Eff.isMutating : Eff → Bool
  | gitCheckout _ => true
  | gitCheckoutB _ _ => true
  | gitPush _ _ => true
  | gitPushDelete _ _ => true
  | gitRebase _ _ => true
  | gitCommitAmend _ => true
  | gitBranchDeleteLocal _ => true
  | ghPrCreate _ _ _ _ => true
  | ghPrEditBase _ _ => true
  | ghPrEditFull _ _ _ _ => true
  | ghPrMerge _ _ _ => true
  | _ => false

/-! ## Consistency verifier (cli.py 425-470) -/

/-- Response of `gh pr view --json ...`, with `Option` fields so that a
missing key in the returned JSON object is representable. -/
structure PrInfo where
  state : Option (List Char) := none
  number : Option Nat := none
  baseRefName : Option (List Char) := none
  headRefName : Option (List Char) := none
deriving DecidableEq, Repr

/-- Typed outcomes of `verify`.  The first six correspond to the
`RuntimeError`s raised in cli.py 425-470; `indexError` models the
uncaught Python `IndexError` raised by `last(e.pr)` (cli.py 368-369,
`ref.rsplit("/", 1)[1]`) when the PR reference contains no slash. -/
inductive VerifyError where
  | missingMetadata
  | malformedLink
  | malformedResponse
  | prNotOpen
  | prNumberMismatch
  | prHeadMismatch
  | prBaseMismatch
  | indexError
deriving DecidableEq, Repr

deriving instance DecidableEq for Except

/-- Pipeline of `verify` for one entry, given the PR host's response
function; returns the `gh pr view` calls made (empty when the entry is
rejected before the query). -/
def verify_entry (host : List Char → PrInfo) (check_base : Bool)
    (e : StackEntry) : List Eff × Except VerifyError Unit :=
  if has_missing_info e then ([], .error .missingMetadata)
  else
    match e.pr, e.head, e.base with
    | some pr, some head, some base =>
      -- `len(e.pr.split("/")) == 0` is always false in Python, so the
      -- first reachable test is `last(e.pr)`, which raises when `pr`
      -- has no slash.
      match lastSlashComp pr with
      | none => ([], .error .indexError)
      | some lc =>
        if !isnumeric lc then ([], .error .malformedLink)
        else
          let d := host pr
          match d.state, d.number, d.baseRefName, d.headRefName with
          | some state, some number, some baseRef, some headRef =>
            if state ≠ "OPEN".data then ([.ghPrViewQ pr], .error .prNotOpen)
            else if parseNat lc ≠ number then
              ([.ghPrViewQ pr], .error .prNumberMismatch)
            else if head ≠ headRef then
              ([.ghPrViewQ pr], .error .prHeadMismatch)
            else if check_base ∧ base ≠ baseRef then
              ([.ghPrViewQ pr], .error .prBaseMismatch)
            else ([.ghPrViewQ pr], .ok ())
          | _, _, _, _ => ([.ghPrViewQ pr], .error .malformedResponse)
    | _, _, _ => ([], .error .missingMetadata)

/-- `verify` (cli.py 425-470): run the pipeline on each entry in stack
order and stop at the first failure. -/
def verify (host : List Char → PrInfo) (check_base : Bool) :
    List StackEntry → List Eff × Except VerifyError Unit
  | [] => ([], .ok ())
  | e :: rest =>
    match verify_entry host check_base e with
    | (effs, .ok ()) =>
      let r := verify host check_base rest
      (effs ++ r.1, r.2)
    | (effs, .error err) => (effs, .error err)

/-! ## Branch allocator (cli.py 519-550) -/

/-- `is_valid_ref` (cli.py 360-365): strip quotes, split off the last
two path components; valid iff there are at least two slashes, the
second-to-last component is `stack` and the last is numeric. -/
def is_valid_ref (ref : List Char) : Bool :=
  if (stripQuotes ref).count '/' < 2 then false
  else (afterLastSlash (beforeLastSlash (stripQuotes ref)) == "stack".data) &&
    isnumeric (afterLastSlash (stripQuotes ref))

/-- Maximum numeric suffix among the enumerated refs that pass
`is_valid_ref` (0 when none do); cli.py 531-532. -/
def max_stack_ref_num (refs : List (List Char)) : Nat :=
  ((refs.filter is_valid_ref).map
    (fun r => parseNat (afterLastSlash (stripQuotes r)))).foldr Nat.max 0

/-- Branch name `<username>/stack/<n>`. -/
def mkStackBranchName (username : List Char) (n : Nat) : List Char :=
  username ++ "/stack/".data ++ natDigits n

/-- `get_available_branch_name` (cli.py 519-535), with the
`git for-each-ref` output supplied as the list of its (quoted)
tokens. -/
def get_available_branch_name (username : List Char)
    (refs : List (List Char)) : List Char :=
  mkStackBranchName username (max_stack_ref_num refs + 1)

/-- `get_next_available_branch_name` (cli.py 538-540):
`base, id = name.rsplit("/", 1); f"{base}/{int(id) + 1}"`; `none`
models the Python crash when `name` has no slash or a non-numeric
suffix. -/
def get_next_available_branch_name (name : List Char) :
    Option (List Char) :=
  if hasSlash name then
    match parseNatQ (afterLastSlash name) with
    | some k => some (beforeLastSlash name ++ '/' :: natDigits (k + 1))
    | none => none
  else none

/-- Assignment loop of `set_head_branches` (cli.py 548-550): every
entry lacking a head gets the next available name. -/
def set_head_branches_assign :
    List (Option (List Char)) → List Char →
      Option (List (Option (List Char)))
  | [], _ => some []
  | some h :: rest, avail =>
    (set_head_branches_assign rest avail).map (fun r => some h :: r)
  | none :: rest, avail =>
    match get_next_available_branch_name avail with
    | none => none
    | some nxt =>
      (set_head_branches_assign rest nxt).map (fun r => some avail :: r)

/-- Expected result of the allocator per the spec's words (spec §4.4):
entries that already have a head keep it; the k-th entry lacking one
receives `<username>/stack/<n+k>`, numbering consecutively in stack
order. -/
def specAssignHeads (username : List Char) :
    List (Option (List Char)) → Nat → List (Option (List Char))
  | [], _ => []
  | some h :: rest, n => some h :: specAssignHeads username rest n
  | none :: rest, n =>
    some (mkStackBranchName username n) ::
      specAssignHeads username rest (n + 1)

/-- The quoted `for-each-ref` token a remote branch `b` appears as in
the output of `--format='%(refname)'` (the quotes are literal because
the command is run without a shell). -/
def refToken (remote b : List Char) : List Char :=
  quoteChar :: (("refs/remotes/".data ++ remote ++ '/' :: b) ++ [quoteChar])

/-! ## Claim C8: the cross-link table of contents (cli.py 608-615) -/

/-- One line of the table of contents:
`f" * {arrow}#{pr_id}\n"` with `arrow = "__->__"` when the entry's PR
id equals the id of the PR being rendered; `none` models the Python
crash when the entry has no PR or its reference has no slash. -/
def toc_entry (current : List Char) (se : StackEntry) :
    Option (List Char) :=
  match se.pr with
  | none => none
  | some pr =>
    match lastSlashComp pr with
    | none => none
    | some pr_id =>
      some (" * ".data ++
        (if pr_id = current then "__->__".data else []) ++
        '#' :: pr_id ++ ['\n'])

/-- `generate_toc` (cli.py 608-615): `entries` iterates `st[::-1]`, the
reversed stack, and the block is
`f"Stacked PRs:\n{''.join(entries)}\n"`. -/
def generate_toc (st : List StackEntry) (current : List Char) :
    Option (List Char) :=
  (st.reverse.mapM (toc_entry current)).map
    (fun entries => "Stacked PRs:\n".data ++ entries.flatten ++ ['\n'])

/-! ## The external world and the traced command models

A `World` packages the responses of the two external ports (git and the
GitHub CLI).  The model is stateless — each response function is a
fixed function of its arguments, which matches the claims under
scrutiny: they are about the calls a command issues, not about
interleaved external changes. -/

structure World where
  currentBranch : List Char
  isAncestor : List Char → List Char → Bool
  revParse : List Char → List Char
  /-- Parsed `git rev-list --header ^base head` output, newest first. -/
  revList : List Char → List Char → List CommitHeader
  ghUsername : List Char
  /-- Tokens of `git for-each-ref <pattern> --format='%(refname)'`
  split on whitespace; each token carries the literal quotes of the
  format string. -/
  forEachRef : List Char → List (List Char)
  branchExists : List Char → Bool
  prView : List Char → PrInfo
  prViewBody : List Char → List Char
  /-- PR reference returned by `gh pr create` for a given head branch. -/
  prCreateResult : List Char → List Char

inductive CmdOutcome where
  | success
  | emptyStack
  | bitmaskMismatch
  | ancestryExit
  | verifyFail (e : VerifyError)
  | pyCrash
deriving DecidableEq, Repr

structure CommonArgs where
  base : List Char
  head : List Char
  remote : List Char
  target : List Char
deriving DecidableEq, Repr

/-- `should_update_local_base` (cli.py 703-710); the two `rev-parse`
calls run first, then the short-circuited `and` of the two ancestry
queries and the hash comparison. -/
def should_update_local_base_w (w : World) (head base remote target : List Char) :
    List Eff × Bool :=
  let rt := remote ++ '/' :: target
  if w.isAncestor base rt then
    ([.gitRevParseQ base, .gitRevParseQ rt, .gitIsAncestorQ base rt,
      .gitIsAncestorQ rt head],
     w.isAncestor rt head && (w.revParse base != w.revParse rt))
  else
    ([.gitRevParseQ base, .gitRevParseQ rt, .gitIsAncestorQ base rt], false)

/-- `get_stack` (cli.py 394-416) with its git calls; `none` models the
`exit(1)` taken when `base` is not an ancestor of `head`. -/
def get_stack_w (w : World) (base head : List Char) :
    List Eff × Option (List StackEntry) :=
  if w.isAncestor base head then
    ([.gitIsAncestorQ base head, .gitRevListQ base head],
     some (get_stack_entries (w.revList base head)))
  else
    ([.gitIsAncestorQ base head], none)

/-- The `for-each-ref` pattern `refs/remotes/{remote}/{username}/stack`
used by cli.py 526 and 932. -/
def stackRefPattern (remote username : List Char) : List Char :=
  "refs/remotes/".data ++ remote ++ '/' :: (username ++ "/stack".data)

/-- `set_head_branches` (cli.py 543-550): fetch, enumerate the stack
namespace, and assign fresh names to every entry lacking a head. -/
def set_head_branches_w (w : World) (st : List StackEntry)
    (remote : List Char) : List Eff × Option (List StackEntry) :=
  let pfx := stackRefPattern remote w.ghUsername
  let effs := [Eff.gitFetchPrune remote, Eff.ghUserQ, Eff.gitForEachRefQ pfx]
  match set_head_branches_assign (st.map StackEntry.head)
      (get_available_branch_name w.ghUsername (w.forEachRef pfx)) with
  | none => (effs, none)
  | some hs =>
    (effs, some (List.zipWith (fun e h => { e with head := h }) st hs))

/-- Checkout commands of `init_local_branches` (cli.py 556-557);
`none` models the attribute error on a missing head. -/
def checkout_branches_effs : List StackEntry → Option (List Eff)
  | [] => some []
  | e :: rest =>
    match e.head with
    | none => none
    | some h =>
      (checkout_branches_effs rest).map
        (fun es => Eff.gitCheckoutB e.commit.commit_id h :: es)

/-- `init_local_branches` (cli.py 553-557). -/
def init_local_branches_w (w : World) (st : List StackEntry)
    (remote : List Char) : List Eff × Option (List StackEntry) :=
  match set_head_branches_w w st remote with
  | (effs, none) => (effs, none)
  | (effs, some st1) =>
    match checkout_branches_effs st1 with
    | none => (effs, none)
    | some ces => (effs ++ ces, some st1)

/-- Heads of all entries, `none` when any is missing (every entry's
`e.head` is read by `push_branches` and `delete_local_branches`). -/
def all_heads (st : List StackEntry) : Option (List (List Char)) :=
  st.mapM StackEntry.head

/-- `reset_remote_base_branches` (cli.py 685-689): retarget every
existing PR onto `target`. -/
def reset_remote_base_branches_w (st : List StackEntry)
    (target : List Char) : List Eff :=
  st.filterMap (fun e => e.pr.map (fun p => Eff.ghPrEditBase p target))

/-- `create_pr` (cli.py 575-605): skip entries that already have a PR,
otherwise create one and record the returned reference. -/
def create_pr_w (w : World) (e : StackEntry) (is_draft : Bool) :
    List Eff × Option StackEntry :=
  match e.pr with
  | some _ => ([], some e)
  | none =>
    match e.base, e.head with
    | some b, some h =>
      ([.ghPrCreate b h e.commit.title is_draft],
       some { e with pr := some (w.prCreateResult h) })
    | _, _ => ([], none)

/-- PR-creation loop of `command_submit` (cli.py 813-816), including
the short-circuited draft flag
`draft or ((draft_bitmask is not None) and draft_bitmask[e_idx])`. -/
def create_prs_w (w : World) :
    List StackEntry → Bool → Option (List Bool) → Nat →
      List Eff × Option (List StackEntry)
  | [], _, _, _ => ([], some [])
  | e :: rest, draft, bm, idx =>
    match (if draft then some true
           else match bm with
             | none => some false
             | some l => l.get? idx) with
    | none => ([], none)
    | some dflag =>
      match create_pr_w w e (draft || dflag) with
      | (effs, none) => (effs, none)
      | (effs, some e') =>
        match create_prs_w w rest draft bm (idx + 1) with
        | (effs2, none) => (effs ++ effs2, none)
        | (effs2, some rest') => (effs ++ effs2, some (e' :: rest'))

/-- `add_or_update_metadata` (cli.py 491-516) as a step of the traced
metadata loop: rebase or checkout the branch, then amend unless the
message already matches the pattern. -/
def add_or_update_metadata_w (e : StackEntry) (needs_rebase : Bool) :
    List Eff × Option Bool :=
  match (if needs_rebase then
          match e.base, e.head with
          | some b, some h => some [Eff.gitRebase b h]
          | _, _ => none
         else
          match e.head with
          | some h => some [Eff.gitCheckout h]
          | none => none) with
  | none => ([], none)
  | some effs1 =>
    match stackInfoSearch e.commit.msg with
    | some _ => (effs1, some needs_rebase)
    | none =>
      match e.pr, e.head with
      | some p, some h =>
        (effs1 ++
          [.gitCommitAmend (e.commit.msg ++ '\n' :: '\n' :: metaLine p h)],
         some true)
      | _, _ => (effs1, none)

/-- Metadata loop of `command_submit` (cli.py 822-829). -/
def metadata_loop_w : List StackEntry → Bool → List Eff × Option Bool
  | [], nr => ([], some nr)
  | e :: rest, nr =>
    match add_or_update_metadata_w e nr with
    | (effs, none) => (effs, none)
    | (effs, some nr') =>
      let r := metadata_loop_w rest nr'
      (effs ++ r.1, r.2)

def crossLinksDelim : List Char := "--- --- ---".data

/-- First occurrence split of Python `s.split(delim, 1)[-1]`: the part
after the first occurrence of `delim`, or `none` when absent. -/
def findAfterDelim (delim : List Char) : List Char → Option (List Char)
  | [] => none
  | c :: rest =>
    if delim.isPrefixOf (c :: rest) then some ((c :: rest).drop delim.length)
    else findAfterDelim delim rest

def afterDelim (delim l : List Char) : List Char :=
  (findAfterDelim delim l).getD l

/-- Python `str.strip()` (both ends) and `str.lstrip()`. -/
def pyStrip (l : List Char) : List Char :=
  ((l.dropWhile Char.isWhitespace).reverse.dropWhile Char.isWhitespace).reverse

def pyLstrip (l : List Char) : List Char := l.dropWhile Char.isWhitespace

/-- One iteration of `add_cross_links` (cli.py 625-659): build the
table of contents and the new PR body, then edit the PR (title, body,
and base `e.base`). -/
def add_cross_links_entry_w (w : World) (st : List StackEntry)
    (keep_body : Bool) (e : StackEntry) : List Eff × Option Unit :=
  match e.pr with
  | none => ([], none)
  | some p =>
    match lastSlashComp p with
    | none => ([], none)
    | some pr_id =>
      match generate_toc st pr_id with
      | none => ([], none)
      | some pr_toc =>
        let title := e.commit.title
        let body := List.intercalate ['\n'] ((splitLines e.commit.msg).drop 1)
        let body := stackInfoSub body
        let parts : List Eff × List (List Char) :=
          if keep_body then
            ([.ghPrViewQ p],
             [pr_toc, crossLinksDelim ++ ['\n'],
              pyLstrip (afterDelim crossLinksDelim (pyStrip (w.prViewBody p)))])
          else
            ([], [pr_toc, crossLinksDelim ++ ['\n'],
                  "### ".data ++ title, [], body])
        match e.base with
        | none => (parts.1, none)
        | some b =>
          (parts.1 ++
            [.ghPrEditFull p title (List.intercalate ['\n'] parts.2) b],
           some ())

/-- `add_cross_links` (cli.py 625-659). -/
def add_cross_links_w (w : World) (st : List StackEntry) (keep_body : Bool) :
    List StackEntry → List Eff × Option Unit
  | [] => ([], some ())
  | e :: rest =>
    match add_cross_links_entry_w w st keep_body e with
    | (effs, none) => (effs, none)
    | (effs, some ()) =>
      let r := add_cross_links_w w st keep_body rest
      (effs ++ r.1, r.2)

/-- `delete_local_branches` (cli.py 915-920): one `git branch -D` over
the truthy heads (reading `e.head` raises when unset, even in the
filter). -/
def delete_local_branches_w (st : List StackEntry) :
    List Eff × Option Unit :=
  match all_heads st with
  | none => ([], none)
  | some hs =>
    ([.gitBranchDeleteLocal (hs.filter (fun h => h ≠ []))], some ())

/-- Python `str.replace(pat, "")` on a nonempty pattern, with fuel for
structural recursion. -/
def removeAllFuel (pat : List Char) : Nat → List Char → List Char
  | 0, l => l
  | _ + 1, [] => []
  | f + 1, c :: rest =>
    if pat ≠ [] ∧ pat.isPrefixOf (c :: rest) then
      removeAllFuel pat f ((c :: rest).drop pat.length)
    else c :: removeAllFuel pat f rest

def removeAll (pat l : List Char) : List Char := removeAllFuel pat l.length l

/-- `delete_remote_branches` (cli.py 923-942): fetch, enumerate the
stack namespace, strip the `refs/remotes/{remote}/` infix from each
token (the surrounding quotes of the `--format='%(refname)'` output
remain!), and push-delete the heads found among the results. -/
def delete_remote_branches_w (w : World) (st : List StackEntry)
    (remote : List Char) : List Eff × Option Unit :=
  let pfx := stackRefPattern remote w.ghUsername
  let effs := [Eff.gitFetchPrune remote, Eff.ghUserQ, Eff.gitForEachRefQ pfx]
  let refs := (w.forEachRef pfx).map
    (removeAll ("refs/remotes/".data ++ remote ++ ['/']))
  match all_heads st with
  | none => (effs, none)
  | some hs =>
    let toDelete := hs.filter (fun h => refs.contains h)
    if toDelete.isEmpty then (effs, some ())
    else (effs ++ [.gitPushDelete remote toDelete], some ())

/-- `rebase_pr` (cli.py 859-882). -/
def rebase_pr_w (e : StackEntry) (remote target : List Char) :
    List Eff × Option Unit :=
  match e.head with
  | none => ([.gitFetchPrune remote], none)
  | some h =>
    ([.gitFetchPrune remote, .gitCheckoutB (remote ++ '/' :: h) h,
      .gitRebase (remote ++ '/' :: target) h, .gitPush remote [h]],
     some ())

def rebase_prs_w : List StackEntry → List Char → List Char →
    List Eff × Option Unit
  | [], _, _ => ([], some ())
  | e :: rest, remote, target =>
    match rebase_pr_w e remote target with
    | (effs, none) => (effs, none)
    | (effs, some ()) =>
      let r := rebase_prs_w rest remote target
      (effs ++ r.1, r.2)

/-- `land_pr` (cli.py 885-912): fetch, check out the remote head,
retarget the PR to `target`, and squash-merge it under the original
commit message (metadata stripped) with `(#<id>)` appended to the
title. -/
def land_pr_w (e : StackEntry) (remote target : List Char) :
    List Eff × Option Unit :=
  match e.head with
  | none => ([.gitFetchPrune remote], none)
  | some h =>
    let effs1 := [Eff.gitFetchPrune remote,
      Eff.gitCheckoutB (remote ++ '/' :: h) h]
    match e.pr with
    | none => (effs1, none)
    | some p =>
      let effs2 := effs1 ++ [Eff.ghPrEditBase p target]
      let pr_body := stackInfoSub e.commit.msg
      match lastSlashComp p with
      | none => (effs2, none)
      | some pr_id =>
        match splitLines pr_body with
        | [] => (effs2, none)
        | l0 :: restLines =>
          let title := l0 ++ " (#".data ++ pr_id ++ [')']
          let body := List.intercalate ['\n'] restLines
          (effs2 ++
            [.ghPrMerge p title (if body.isEmpty then [' '] else body)],
           some ())

/-- `strip_metadata` (cli.py 1005-1014): strip the metadata line from
the message, rebase the branch onto its base, amend, and resolve the
new head hash. -/
def strip_metadata_w (w : World) (e : StackEntry) :
    List Eff × Option (List Char) :=
  let m := stackInfoSub e.commit.msg
  match e.base, e.head with
  | some b, some h =>
    ([.gitRebase b h, .gitCommitAmend m, .gitRevParseQ h],
     some (w.revParse h))
  | _, _ => ([], none)

/-- Strip loop of `command_abandon` (cli.py 1035-1037), threading
`last_hash`. -/
def strip_loop_w (w : World) : List StackEntry → List Char →
    List Eff × Option (List Char)
  | [], acc => ([], some acc)
  | e :: rest, acc =>
    match strip_metadata_w w e with
    | (effs, none) => (effs, none)
    | (effs, some h) =>
      let _ := acc
      let r := strip_loop_w w rest h
      (effs ++ r.1, r.2)

/-- `command_submit` (cli.py 767-853). -/
def command_submit (w : World) (args : CommonArgs) (draft : Bool)
    (keep_body : Bool) (draft_bitmask : Option (List Bool)) :
    List Eff × CmdOutcome :=
  let current := w.currentBranch
  let rt := args.remote ++ '/' :: args.target
  let su := should_update_local_base_w w args.head args.base args.remote
    args.target
  let effs1 := Eff.gitCurrentBranchQ :: su.1 ++
    (if su.2 then [Eff.gitRebase rt args.base, Eff.gitCheckout current]
     else [])
  let gs := get_stack_w w args.base args.head
  let effs2 := effs1 ++ gs.1
  match gs.2 with
  | none => (effs2, .ancestryExit)
  | some st =>
    if st.isEmpty then (effs2, .emptyStack)
    else if draft_bitmask.isSome ∧
        (draft_bitmask.getD []).length ≠ st.length then
      (effs2, .bitmaskMismatch)
    else
      match init_local_branches_w w st args.remote with
      | (effs3, none) => (effs2 ++ effs3, .pyCrash)
      | (effs3, some st1) =>
        let st2 := set_base_branches st1 args.target
        match st2.getLast? with
        | none => (effs2 ++ effs3, .pyCrash)
        | some lastE =>
          match lastE.head with
          | none => (effs2 ++ effs3, .pyCrash)
          | some top_branch =>
            let effs4 := effs2 ++ effs3 ++
              [Eff.gitIsAncestorQ top_branch current]
            let needRebase := w.isAncestor top_branch current
            let effs5 := effs4 ++ reset_remote_base_branches_w st2 args.target
            match all_heads st2 with
            | none => (effs5, .pyCrash)
            | some hs =>
              let effs6 := effs5 ++ [Eff.gitPush args.remote hs]
              match create_prs_w w st2 draft draft_bitmask 0 with
              | (effsC, none) => (effs6 ++ effsC, .pyCrash)
              | (effsC, some st3) =>
                let v := verify w.prView false st3
                let effs7 := effs6 ++ effsC ++ v.1
                match v.2 with
                | .error err => (effs7, .verifyFail err)
                | .ok () =>
                  match metadata_loop_w st3 false with
                  | (effsM, none) => (effs7 ++ effsM, .pyCrash)
                  | (effsM, some _) =>
                    match all_heads st3 with
                    | none => (effs7 ++ effsM, .pyCrash)
                    | some hs2 =>
                      let effs8 := effs7 ++ effsM ++
                        [Eff.gitPush args.remote hs2]
                      match add_cross_links_w w st3 keep_body st3 with
                      | (effsX, none) => (effs8 ++ effsX, .pyCrash)
                      | (effsX, some ()) =>
                        let effs9 := effs8 ++ effsX ++
                          (if needRebase then
                            [Eff.gitRebase top_branch current]
                           else [Eff.gitCheckout current])
                        match delete_local_branches_w st3 with
                        | (effsD, none) => (effs9 ++ effsD, .pyCrash)
                        | (effsD, some ()) =>
                          (effs9 ++ effsD ++
                            (if args.head = "HEAD".data then
                              [Eff.gitCurrentBranchQ]
                             else []), .success)

/-- Shared tail of `command_land` (cli.py 987-999): restore the
caller's branch, delete local branches of the whole stack, attempt
remote deletion for the bottom entry only (`st[:1]`), fast-forward the
local target when it exists, and rebase the original branch. -/
def land_tail_w (w : World) (st1 : List StackEntry) (args : CommonArgs)
    (current : List Char) : List Eff × CmdOutcome :=
  let e0 := [Eff.gitCheckout current]
  match delete_local_branches_w st1 with
  | (eD, none) => (e0 ++ eD, .pyCrash)
  | (eD, some ()) =>
    match delete_remote_branches_w w (st1.take 1) args.remote with
    | (eR, none) => (e0 ++ eD ++ eR, .pyCrash)
    | (eR, some ()) =>
      let rt := args.remote ++ '/' :: args.target
      let eB := Eff.gitBranchExistsQ args.target ::
        (if w.branchExists args.target then [Eff.gitRebase rt args.target]
         else [])
      (e0 ++ eD ++ eR ++ eB ++ [Eff.gitRebase rt current], .success)

/-- `command_land` (cli.py 948-999): land the bottom PR, rebase and
retarget the remaining PRs, then run the shared tail. -/
def command_land (w : World) (args : CommonArgs) : List Eff × CmdOutcome :=
  let current := w.currentBranch
  let rt := args.remote ++ '/' :: args.target
  let su := should_update_local_base_w w args.head args.base args.remote
    args.target
  let effs1 := Eff.gitCurrentBranchQ :: su.1 ++
    (if su.2 then [Eff.gitRebase rt args.base, Eff.gitCheckout current]
     else [])
  let gs := get_stack_w w args.base args.head
  let effs2 := effs1 ++ gs.1
  match gs.2 with
  | none => (effs2, .ancestryExit)
  | some st =>
    if st.isEmpty then (effs2, .emptyStack)
    else
      let st1 := set_base_branches st args.target
      let v := verify w.prView true st1
      let effs3 := effs2 ++ v.1
      match v.2 with
      | .error err => (effs3, .verifyFail err)
      | .ok () =>
        match st1 with
        | [] => (effs3, .pyCrash)
        | e0 :: restSt =>
          match land_pr_w e0 args.remote args.target with
          | (effsL, none) => (effs3 ++ effsL, .pyCrash)
          | (effsL, some ()) =>
            let effs4 := effs3 ++ effsL
            if restSt.isEmpty then
              let t := land_tail_w w st1 args current
              (effs4 ++ t.1, t.2)
            else
              match rebase_prs_w restSt args.remote args.target with
              | (effsR, none) => (effs4 ++ effsR, .pyCrash)
              | (effsR, some ()) =>
                match restSt with
                | [] => (effs4 ++ effsR, .pyCrash)
                | e1 :: _ =>
                  match e1.pr with
                  | none => (effs4 ++ effsR, .pyCrash)
                  | some p1 =>
                    let effs5 := effs4 ++ effsR ++
                      [Eff.ghPrEditBase p1 args.target]
                    let t := land_tail_w w st1 args current
                    (effs5 ++ t.1, t.2)

/-- `command_abandon` (cli.py 1020-1044). -/
def command_abandon (w : World) (args : CommonArgs) :
    List Eff × CmdOutcome :=
  let gs := get_stack_w w args.base args.head
  match gs.2 with
  | none => (gs.1, .ancestryExit)
  | some st =>
    if st.isEmpty then (gs.1, .emptyStack)
    else
      let current := w.currentBranch
      let effs0 := gs.1 ++ [Eff.gitCurrentBranchQ]
      match init_local_branches_w w st args.remote with
      | (effsI, none) => (effs0 ++ effsI, .pyCrash)
      | (effsI, some st1) =>
        let st2 := set_base_branches st1 args.target
        match strip_loop_w w st2 [] with
        | (effsS, none) => (effs0 ++ effsI ++ effsS, .pyCrash)
        | (effsS, some lastHash) =>
          let effs1 := effs0 ++ effsI ++ effsS ++
            [Eff.gitRebase lastHash current]
          match delete_local_branches_w st2 with
          | (effsD, none) => (effs1 ++ effsD, .pyCrash)
          | (effsD, some ()) =>
            match delete_remote_branches_w w st2 args.remote with
            | (effsR, none) => (effs1 ++ effsD ++ effsR, .pyCrash)
            | (effsR, some ()) => (effs1 ++ effsD ++ effsR, .success)

/-- `command_view` (cli.py 1078-1111): read-only display; note that it
has no empty-stack early return — `set_head_branches` (and its fetch)
runs even on an empty stack. -/
def command_view (w : World) (args : CommonArgs) : List Eff × CmdOutcome :=
  let su := should_update_local_base_w w args.head args.base args.remote
    args.target
  let effs0 := su.1 ++ (if su.2 then [Eff.gitCurrentBranchQ] else [])
  let gs := get_stack_w w args.base args.head
  match gs.2 with
  | none => (effs0 ++ gs.1, .ancestryExit)
  | some st =>
    match set_head_branches_w w st args.remote with
    | (effsH, none) => (effs0 ++ gs.1 ++ effsH, .pyCrash)
    | (effsH, some st1) =>
      let _ := set_base_branches st1 args.target
      let tipEffs := if st1.isEmpty then []
        else if args.head = "HEAD".data then [Eff.gitCurrentBranchQ]
        else []
      (effs0 ++ gs.1 ++ effsH ++ tipEffs, .success)

/-- Discriminator for remote-branch deletion pushes. -/
def Eff.isPushDelete : Eff → Bool
  | gitPushDelete _ _ => true
  | _ => false

/-- Concrete world for the land scenario of claim C2: a consistent
two-entry stack (commits `c1`, `c2` carrying metadata for PRs `p/1`,
`p/2` with heads `u/stack/1`, `u/stack/2`), both PRs open and matching,
both head branches present on remote `o`, local `m` existing. -/
def c2World : World where
  currentBranch := "feature".data
  isAncestor := fun _ _ => true
  revParse := fun _ => "h".data
  revList := fun _ _ =>
    [CommitHeader.mk "c2".data
      "B\n\nstack-info: PR: p/2, branch: u/stack/2".data,
     CommitHeader.mk "c1".data
      "A\n\nstack-info: PR: p/1, branch: u/stack/1".data]
  ghUsername := "u".data
  forEachRef := fun _ =>
    ["'refs/remotes/o/u/stack/1'".data, "'refs/remotes/o/u/stack/2'".data]
  branchExists := fun _ => true
  prView := fun p =>
    if p = "p/1".data then
      PrInfo.mk (some "OPEN".data) (some 1) (some "m".data)
        (some "u/stack/1".data)
    else
      PrInfo.mk (some "OPEN".data) (some 2) (some "u/stack/1".data)
        (some "u/stack/2".data)
  prViewBody := fun _ => []
  prCreateResult := fun _ => "p/9".data

def c2Args : CommonArgs := ⟨"B".data, "H".data, "o".data, "m".data⟩

/-- Concrete world for claim C10: the local base `B` is behind
`o/m` while `H` contains it (so the shared preamble fast-forwards `B`),
and the range holds one commit. -/
def c10World : World where
  currentBranch := "feature".data
  isAncestor := fun _ _ => true
  revParse := fun r => if r = "B".data then "hb".data else "hm".data
  revList := fun _ _ => [CommitHeader.mk "c1".data "A msg".data]
  ghUsername := "u".data
  forEachRef := fun _ => []
  branchExists := fun _ => true
  prView := fun _ => PrInfo.mk none none none none
  prViewBody := fun _ => []
  prCreateResult := fun _ => "p/9".data

def c10Args : CommonArgs := ⟨"B".data, "H".data, "o".data, "m".data⟩

/-- Concrete world for the witness of claim C7: an empty commit
range. -/
def c7World : World where
  currentBranch := "main".data
  isAncestor := fun _ _ => true
  revParse := fun _ => "h".data
  revList := fun _ _ => []
  ghUsername := "u".data
  forEachRef := fun _ => []
  branchExists := fun _ => true
  prView := fun _ => PrInfo.mk none none none none
  prViewBody := fun _ => []
  prCreateResult := fun _ => []

def c7Args : CommonArgs :=
  ⟨"HEAD".data, "HEAD".data, "origin".data, "main".data⟩

/-! ## Codec lemmas -/

theorem brSep_eq : brSep = ',' :: " branch: ".data := rfl

theorem takeLine_append_cons_nl (a s : List Char) :
    takeLine (a ++ '\n' :: s) = takeLine a := by
  induction a with
  | nil => simp [takeLine]
  | cons c a ih => by_cases hc : c = '\n' <;> simp [takeLine, hc, ih]

theorem takeLine_of_not_mem {l : List Char} (h : '\n' ∉ l) : takeLine l = l := by
  induction l with
  | nil => rfl
  | cons c rest ih =>
    have hc : c ≠ '\n' := fun hc => h (hc ▸ List.mem_cons_self c rest)
    have hr : '\n' ∉ rest := fun hr => h (List.mem_cons_of_mem _ hr)
    simp [takeLine, hc, ih hr]

theorem dropWithLine_of_not_mem {l : List Char} (h : '\n' ∉ l) :
    dropWithLine l = [] := by
  induction l with
  | nil => rfl
  | cons c rest ih =>
    have hc : c ≠ '\n' := fun hc => h (hc ▸ List.mem_cons_self c rest)
    have hr : '\n' ∉ rest := fun hr => h (List.mem_cons_of_mem _ hr)
    simp [dropWithLine, hc, ih hr]

theorem isPrefixOf_self_append (l t : List Char) : l.isPrefixOf (l ++ t) = true := by
  induction l with
  | nil => simp [List.isPrefixOf]
  | cons c cs ih => simp [List.isPrefixOf, ih]

theorem sepSplitLast_eq_none {l : List Char} (h : ∀ c ∈ l, c ≠ ',') :
    sepSplitLast l = none := by
  induction l with
  | nil => rfl
  | cons c rest ih =>
    have hr := ih (fun x hx => h x (List.mem_cons_of_mem _ hx))
    have hc : c ≠ ',' := h c (List.mem_cons_self c rest)
    rw [sepSplitLast, hr, if_neg]
    rintro ⟨h1, -⟩
    rw [brSep_eq] at h1
    simp [List.isPrefixOf] at h1
    exact hc h1.1.symm

theorem no_comma_blank_branch : ∀ c ∈ " branch: ".data, c ≠ ',' := by decide

theorem sepSplitLast_append (x y : List Char) (hy : y ≠ []) (hyc : ',' ∉ y) :
    sepSplitLast (x ++ brSep ++ y) = some (x, y) := by
  induction x with
  | nil =>
    have hshape : ([] : List Char) ++ brSep ++ y = ',' :: (" branch: ".data ++ y) := by
      simp [brSep_eq]
    rw [hshape]
    have hnone : sepSplitLast (" branch: ".data ++ y) = none := by
      apply sepSplitLast_eq_none
      intro c hc
      rcases List.mem_append.mp hc with h | h
      · exact no_comma_blank_branch c h
      · exact fun he => hyc (he ▸ h)
    rw [sepSplitLast, hnone, if_pos]
    · have hd : (',' :: (" branch: ".data ++ y)).drop brSep.length = y := by
        have : ',' :: (" branch: ".data ++ y) = brSep ++ y := by simp [brSep_eq]
        rw [this, List.drop_left]
      rw [hd]
    · constructor
      · have : ',' :: (" branch: ".data ++ y) = brSep ++ y := by simp [brSep_eq]
        rw [this]
        exact isPrefixOf_self_append _ _
      · have : ',' :: (" branch: ".data ++ y) = brSep ++ y := by simp [brSep_eq]
        rw [this, List.drop_left]
        exact hy
  | cons c x' ih =>
    have hshape : (c :: x') ++ brSep ++ y = c :: (x' ++ brSep ++ y) := by simp
    rw [hshape, sepSplitLast, ih]

theorem lineGroups_metaLine (pr head : List Char) (hx : pr ≠ [])
    (hy : head ≠ []) (hyc : ',' ∉ head) :
    lineGroups (metaLine pr head) = some (pr, head) := by
  have hshape : metaLine pr head = prLabel ++ (pr ++ brSep ++ head) := by
    simp [metaLine]
  rw [hshape, lineGroups, if_pos (isPrefixOf_self_append _ _), List.drop_left,
    sepSplitLast_append pr head hy hyc]
  simp [hx]

theorem nl_not_mem_metaLine {pr head : List Char} (hp : '\n' ∉ pr)
    (hh : '\n' ∉ head) : '\n' ∉ metaLine pr head := by
  intro h
  simp only [metaLine, List.mem_append] at h
  rcases h with ((h | h) | h) | h
  · exact absurd h (by decide)
  · exact hp h
  · exact absurd h (by decide)
  · exact hh h

theorem lineGroups_nil : lineGroups [] = none := by decide

/-- Pull apart the `search` hypothesis at a newline head. -/
theorem stackInfoSearch_cons_nl_none {rest : List Char}
    (h : stackInfoSearch ('\n' :: rest) = none) :
    lineGroups (takeLine rest) = none ∧ stackInfoSearch rest = none := by
  rw [stackInfoSearch, if_pos rfl] at h
  cases hlg : lineGroups (takeLine rest) with
  | some g => rw [hlg] at h; exact absurd h (by simp)
  | none => rw [hlg] at h; exact ⟨rfl, h⟩

theorem stackInfoSearch_cons_other_none {c : Char} {rest : List Char}
    (hc : c ≠ '\n') (h : stackInfoSearch (c :: rest) = none) :
    stackInfoSearch rest = none := by
  rwa [stackInfoSearch, if_neg hc] at h

theorem stackInfoSearch_append_meta (m meta : List Char)
    (g : List Char × List Char) (hm : stackInfoSearch m = none)
    (hg : lineGroups meta = some g) (hnl : '\n' ∉ meta) :
    stackInfoSearch (m ++ '\n' :: '\n' :: meta) = some g := by
  induction m with
  | nil =>
    have h1 : takeLine ('\n' :: meta) = [] := by simp [takeLine]
    have h2 : takeLine meta = meta := takeLine_of_not_mem hnl
    rw [List.nil_append, stackInfoSearch, if_pos rfl, h1, lineGroups_nil,
      stackInfoSearch, if_pos rfl, h2, hg]
  | cons c m' ih =>
    by_cases hc : c = '\n'
    · subst hc
      obtain ⟨hlg, hm'⟩ := stackInfoSearch_cons_nl_none hm
      rw [List.cons_append, stackInfoSearch, if_pos rfl,
        takeLine_append_cons_nl, hlg]
      exact ih hm'
    · rw [List.cons_append, stackInfoSearch, if_neg hc]
      exact ih (stackInfoSearch_cons_other_none hc hm)

theorem stackInfoSearch_append_nl (m : List Char)
    (hm : stackInfoSearch m = none) :
    stackInfoSearch (m ++ ['\n']) = none := by
  induction m with
  | nil =>
    rw [List.nil_append, stackInfoSearch, if_pos rfl]
    simp [takeLine, lineGroups_nil, stackInfoSearch]
  | cons c m' ih =>
    by_cases hc : c = '\n'
    · subst hc
      obtain ⟨hlg, hm'⟩ := stackInfoSearch_cons_nl_none hm
      have : takeLine (m' ++ ['\n']) = takeLine m' := takeLine_append_cons_nl m' []
      rw [List.cons_append, stackInfoSearch, if_pos rfl, this, hlg]
      exact ih hm'
    · rw [List.cons_append, stackInfoSearch, if_neg hc]
      exact ih (stackInfoSearch_cons_other_none hc hm)

theorem stackInfoSubFuel_nil (f : Nat) : stackInfoSubFuel f [] = [] := by
  cases f <;> rfl

theorem stackInfoSubFuel_of_none :
    ∀ (f : Nat) (m : List Char), stackInfoSearch m = none →
      stackInfoSubFuel f m = m := by
  intro f
  induction f with
  | zero => intro m _; rfl
  | succ f ih =>
    intro m hm
    cases m with
    | nil => rfl
    | cons c rest =>
      by_cases hc : c = '\n'
      · subst hc
        obtain ⟨hlg, hrest⟩ := stackInfoSearch_cons_nl_none hm
        rw [stackInfoSubFuel, if_pos rfl, hlg, ih rest hrest]
      · rw [stackInfoSubFuel, if_neg hc,
          ih rest (stackInfoSearch_cons_other_none hc hm)]

theorem stackInfoSub_of_none {m : List Char} (hm : stackInfoSearch m = none) :
    stackInfoSub m = m := stackInfoSubFuel_of_none m.length m hm

theorem stackInfoSubFuel_append_meta :
    ∀ (B : List Char) (f : Nat) (meta : List Char)
      (g : List Char × List Char), B.length + 2 ≤ f →
      stackInfoSearch B = none → lineGroups meta = some g → '\n' ∉ meta →
      stackInfoSubFuel f (B ++ '\n' :: '\n' :: meta) = B ++ ['\n'] := by
  intro B
  induction B with
  | nil =>
    intro f meta g hf hB hg hnl
    obtain ⟨f1, rfl⟩ : ∃ f1, f = f1 + 1 := ⟨f - 1, by omega⟩
    obtain ⟨f2, rfl⟩ : ∃ f2, f1 = f2 + 1 := ⟨f1 - 1, by omega⟩
    have h1 : takeLine ('\n' :: meta) = [] := by simp [takeLine]
    have e1 : stackInfoSubFuel (f2 + 1 + 1) ('\n' :: '\n' :: meta) =
        '\n' :: stackInfoSubFuel (f2 + 1) ('\n' :: meta) := by
      simp [stackInfoSubFuel, h1, lineGroups_nil]
    have e2 : stackInfoSubFuel (f2 + 1) ('\n' :: meta) = [] := by
      simp [stackInfoSubFuel, takeLine_of_not_mem hnl, hg,
        dropWithLine_of_not_mem hnl, stackInfoSubFuel_nil]
    rw [List.nil_append, e1, e2]
    simp
  | cons c B' ih =>
    intro f meta g hf hB hg hnl
    obtain ⟨f1, rfl⟩ : ∃ f1, f = f1 + 1 := ⟨f - 1, by omega⟩
    by_cases hc : c = '\n'
    · subst hc
      obtain ⟨hlg, hB'⟩ := stackInfoSearch_cons_nl_none hB
      have e1 : stackInfoSubFuel (f1 + 1) ('\n' :: (B' ++ '\n' :: '\n' :: meta)) =
          '\n' :: stackInfoSubFuel f1 (B' ++ '\n' :: '\n' :: meta) := by
        simp [stackInfoSubFuel, takeLine_append_cons_nl, hlg]
      rw [List.cons_append, e1,
        ih f1 meta g (by simp at hf ⊢; omega) hB' hg hnl]
      simp
    · have e1 : stackInfoSubFuel (f1 + 1) (c :: (B' ++ '\n' :: '\n' :: meta)) =
          c :: stackInfoSubFuel f1 (B' ++ '\n' :: '\n' :: meta) := by
        simp [stackInfoSubFuel, hc]
      rw [List.cons_append, e1,
        ih f1 meta g (by simp at hf ⊢; omega)
          (stackInfoSearch_cons_other_none hc hB) hg hnl]
      simp

theorem stackInfoSub_append_meta (B meta : List Char)
    (g : List Char × List Char) (hB : stackInfoSearch B = none)
    (hg : lineGroups meta = some g) (hnl : '\n' ∉ meta) :
    stackInfoSub (B ++ '\n' :: '\n' :: meta) = B ++ ['\n'] := by
  apply stackInfoSubFuel_append_meta B _ meta g _ hB hg hnl
  simp

/-! ## Claim C1: metadata encode/decode round trip -/

/-- C1, counterexample: when the message already contains a (different)
metadata line, `add_or_update_metadata` keeps the message unchanged (it
does not replace the line), so decoding returns the old pair, not the
newly requested one.  Here `m = "t\n\nstack-info: PR: a, branch: b"`,
`pr = "c"`, `head = "d"`. -/
theorem c1_roundtrip_counterexample :
    stackInfoSearch
        (add_or_update_metadata_msg "t\n\nstack-info: PR: a, branch: b".data
          "c".data "d".data) ≠
      some ("c".data, "d".data) := by decide

/-- C1 (amended): `add_or_update_metadata` leaves a message that already
matches the metadata pattern untouched (rather than replacing the line
in place); the round-trip law `decode (encode m pr head) = some (pr,
head)` holds for every message with no existing metadata match when
`pr` and `head` are nonempty and newline-free and `head` contains no
comma. -/
theorem c1_roundtrip_amended :
    (∀ m pr head : List Char, stackInfoSearch m ≠ none →
        add_or_update_metadata_msg m pr head = m) ∧
    (∀ m pr head : List Char, stackInfoSearch m = none →
        pr ≠ [] → '\n' ∉ pr → head ≠ [] → '\n' ∉ head → ',' ∉ head →
        stackInfoSearch (add_or_update_metadata_msg m pr head) =
          some (pr, head)) := by
  constructor
  · intro m pr head hm
    rw [add_or_update_metadata_msg]
    cases hs : stackInfoSearch m with
    | some g => rfl
    | none => exact absurd hs hm
  · intro m pr head hm hpr hprnl hhd hhdnl hhdc
    rw [add_or_update_metadata_msg, hm]
    exact stackInfoSearch_append_meta m _ (pr, head) hm
      (lineGroups_metaLine pr head hpr hhd hhdc)
      (nl_not_mem_metaLine hprnl hhdnl)

/-- C1, witness: both conjuncts of the amended round-trip law applied at
concrete inputs. -/
theorem c1_roundtrip_amended_witness :
    add_or_update_metadata_msg "t\n\nstack-info: PR: a, branch: b".data
        "c".data "d".data = "t\n\nstack-info: PR: a, branch: b".data ∧
    stackInfoSearch
        (add_or_update_metadata_msg "Fix a bug".data "p/7".data
          "u/stack/3".data) =
      some ("p/7".data, "u/stack/3".data) :=
  ⟨c1_roundtrip_amended.1 _ _ _ (by decide),
   c1_roundtrip_amended.2 _ _ _ (by decide) (by decide) (by decide)
     (by decide) (by decide) (by decide)⟩

/-! ## Claim C5: strip laws -/

/-- C5, counterexample: on a message carrying two metadata lines in a
row, a single `strip` leaves a string that still decodes (the second
line becomes a fresh match), and stripping twice removes more than
stripping once, so both laws of the claim fail at this input. -/
theorem c5_strip_counterexample :
    stackInfoSearch
        (strip_metadata_msg
          "t\n\nstack-info: PR: a, branch: b\nstack-info: PR: c, branch: d\n".data) ≠
      none ∧
    strip_metadata_msg
        (strip_metadata_msg
          "t\n\nstack-info: PR: a, branch: b\nstack-info: PR: c, branch: d\n".data) ≠
      strip_metadata_msg
        "t\n\nstack-info: PR: a, branch: b\nstack-info: PR: c, branch: d\n".data := by
  constructor <;> decide

/-- C5 (amended): the two strip laws `decode (strip m) = none` and
`strip (strip m) = strip m` hold for every message with no metadata
match, and for every message of the codec's own shape (a match-free
body followed by one appended metadata line with well-formed `pr` and
`head`); a message containing several stack-info lines can defeat both
laws. -/
theorem c5_strip_laws_amended :
    (∀ m : List Char, stackInfoSearch m = none →
        stackInfoSearch (strip_metadata_msg m) = none ∧
        strip_metadata_msg (strip_metadata_msg m) = strip_metadata_msg m) ∧
    (∀ m pr head : List Char, stackInfoSearch m = none →
        pr ≠ [] → '\n' ∉ pr → head ≠ [] → '\n' ∉ head → ',' ∉ head →
        stackInfoSearch
            (strip_metadata_msg (m ++ '\n' :: '\n' :: metaLine pr head)) =
          none ∧
        strip_metadata_msg
            (strip_metadata_msg (m ++ '\n' :: '\n' :: metaLine pr head)) =
          strip_metadata_msg (m ++ '\n' :: '\n' :: metaLine pr head)) := by
  constructor
  · intro m hm
    have he : strip_metadata_msg m = m := stackInfoSub_of_none hm
    rw [he]
    exact ⟨hm, he⟩
  · intro m pr head hm hpr hprnl hhd hhdnl hhdc
    have hg := lineGroups_metaLine pr head hpr hhd hhdc
    have hnl := nl_not_mem_metaLine hprnl hhdnl
    have hsub : strip_metadata_msg (m ++ '\n' :: '\n' :: metaLine pr head) =
        m ++ ['\n'] :=
      stackInfoSub_append_meta m _ (pr, head) hm hg hnl
    have hnone : stackInfoSearch (m ++ ['\n']) = none :=
      stackInfoSearch_append_nl m hm
    rw [hsub]
    exact ⟨hnone, stackInfoSub_of_none hnone⟩

/-- C5, witness: both parts of the strip laws applied at concrete
inputs. -/
theorem c5_strip_laws_amended_witness :
    (stackInfoSearch (strip_metadata_msg "Fix a bug".data) = none ∧
      strip_metadata_msg (strip_metadata_msg "Fix a bug".data) =
        strip_metadata_msg "Fix a bug".data) ∧
    stackInfoSearch
        (strip_metadata_msg
          ("Fix a bug".data ++ '\n' :: '\n' :: metaLine "p/7".data
            "u/stack/3".data)) = none :=
  ⟨c5_strip_laws_amended.1 _ (by decide),
   (c5_strip_laws_amended.2 "Fix a bug".data "p/7".data "u/stack/3".data
     (by decide) (by decide) (by decide) (by decide) (by decide)
     (by decide)).1⟩

/-! ## Claim C3: fail-fast verification of malformed PR links -/

/-- C3, counterexample: an entry whose PR reference has no slash (here
the numeral `"123"`) makes `verify` fail with the `IndexError` raised
inside `last` (`ref.rsplit("/", 1)[1]`), not with `MalformedLinkError`:
the guard `len(e.pr.split("/")) == 0` is never true in Python, and
`last` is called before `isnumeric`. -/
theorem c3_verify_fail_fast_counterexample :
    (verify (fun _ => PrInfo.mk none none none none) false
        [StackEntry.mk (CommitHeader.mk "c1".data "m".data)
          (some "123".data) (some "b".data) (some "h".data)]).2 ≠
      Except.error VerifyError.malformedLink := by decide

/-- C3 (amended): `verify` examines entries in stack order and raises on
the first failing check; for an entry that is not missing info whose PR
reference contains a slash but no numeric last component, it fails with
`MalformedLinkError` before querying the PR host (no `gh pr view` call)
and performs no checks on later entries; when the reference contains no
slash at all it instead crashes with an `IndexError` from `last`, still
before any host query and still fail-fast. -/
theorem c3_verify_fail_fast_amended :
    (∀ (host : List Char → PrInfo) (check_base : Bool) (e : StackEntry)
        (rest : List StackEntry) (pr : List Char),
        e.pr = some pr → has_missing_info e = false → hasSlash pr = true →
        isnumeric (afterLastSlash pr) = false →
        verify host check_base (e :: rest) =
          ([], .error .malformedLink)) ∧
    (∀ (host : List Char → PrInfo) (check_base : Bool) (e : StackEntry)
        (rest : List StackEntry) (pr : List Char),
        e.pr = some pr → has_missing_info e = false → hasSlash pr = false →
        verify host check_base (e :: rest) =
          ([], .error .indexError)) := by
  constructor
  · intro host cb e rest pr hpr hmiss hslash hnum
    obtain ⟨c, p, b, h⟩ := e
    cases p with
    | none => simp at hpr
    | some p' =>
      simp at hpr
      subst hpr
      cases b with
      | none => simp [has_missing_info] at hmiss
      | some b' =>
        cases h with
        | none => simp [has_missing_info] at hmiss
        | some h' =>
          simp [verify, verify_entry, has_missing_info, lastSlashComp,
            hslash, hnum]
  · intro host cb e rest pr hpr hmiss hslash
    obtain ⟨c, p, b, h⟩ := e
    cases p with
    | none => simp at hpr
    | some p' =>
      simp at hpr
      subst hpr
      cases b with
      | none => simp [has_missing_info] at hmiss
      | some b' =>
        cases h with
        | none => simp [has_missing_info] at hmiss
        | some h' =>
          simp [verify, verify_entry, has_missing_info, lastSlashComp,
            hslash]

/-- C3, witness: both amended conjuncts applied at concrete inputs. -/
theorem c3_verify_fail_fast_amended_witness :
    verify (fun _ => PrInfo.mk none none none none) true
        [StackEntry.mk (CommitHeader.mk "c1".data "m".data)
          (some "gh.com/pull/abc".data) (some "b".data) (some "h".data),
         StackEntry.mk (CommitHeader.mk "c2".data "m2".data) none none none] =
      ([], .error .malformedLink) ∧
    verify (fun _ => PrInfo.mk none none none none) true
        [StackEntry.mk (CommitHeader.mk "c1".data "m".data)
          (some "123".data) (some "b".data) (some "h".data)] =
      ([], .error .indexError) :=
  ⟨c3_verify_fail_fast_amended.1 _ _ _ _ "gh.com/pull/abc".data (by decide)
      (by decide) (by decide) (by decide),
   c3_verify_fail_fast_amended.2 _ _ _ _ "123".data (by decide) (by decide)
      (by decide)⟩

/-! ## Claim C9: freshly built stacks have no base -/

theorem read_metadata_base (e : StackEntry) :
    (read_metadata e).base = e.base := by
  rw [read_metadata]
  cases stackInfoSearch e.commit.msg with
  | none => rfl
  | some g => cases g; rfl

/-- C9 (confirmed): reading metadata never populates `base`, so every
entry of a freshly built stack has `base` absent and
`has_missing_info`; consequently `verify` on any non-empty fresh stack
fails with `MissingMetadataError` on the first entry, before any host
query. -/
theorem c9_fresh_stack_base_absent :
    (∀ (commits : List CommitHeader), ∀ e ∈ get_stack_entries commits,
        e.base = none ∧ has_missing_info e = true) ∧
    (∀ (commits : List CommitHeader) (host : List Char → PrInfo)
        (check_base : Bool), commits ≠ [] →
        verify host check_base (get_stack_entries commits) =
          ([], .error .missingMetadata)) := by
  have hbase : ∀ (commits : List CommitHeader),
      ∀ e ∈ get_stack_entries commits,
      e.base = none ∧ has_missing_info e = true := by
    intro commits e he
    rw [get_stack_entries] at he
    obtain ⟨e0, he0, rfl⟩ := List.mem_map.mp he
    obtain ⟨c, -, rfl⟩ := List.mem_map.mp he0
    have hb : (read_metadata (StackEntry.mk c none none none)).base = none :=
      read_metadata_base _
    refine ⟨hb, ?_⟩
    simp [has_missing_info, hb]
  refine ⟨hbase, ?_⟩
  intro commits host cb hne
  cases hE : get_stack_entries commits with
  | nil =>
    exfalso
    apply hne
    have : (get_stack_entries commits).length = commits.length := by
      simp [get_stack_entries]
    rw [hE] at this
    exact List.length_eq_zero.mp this.symm
  | cons e rest =>
    have hmem : e ∈ get_stack_entries commits := by rw [hE]; exact List.mem_cons_self _ _
    have hmiss : has_missing_info e = true := (hbase commits e hmem).2
    simp [verify, verify_entry, hmiss]

/-- C9, witness: the second conjunct applied to a concrete one-commit
stack whose message already carries a metadata line (so `pr` and `head`
are populated but `base` is still absent). -/
theorem c9_fresh_stack_base_absent_witness :
    verify (fun _ => PrInfo.mk none none none none) false
        (get_stack_entries
          [CommitHeader.mk "c1".data
            "A\n\nstack-info: PR: p/1, branch: u/stack/1".data]) =
      ([], .error .missingMetadata) :=
  c9_fresh_stack_base_absent.2 _ _ _ (by decide)

/-! ## Claim C6: the base-chaining invariant I1 -/

theorem set_base_branches_go_length (st : List StackEntry)
    (prev : Option (List Char)) :
    (set_base_branches_go st prev).length = st.length := by
  induction st generalizing prev with
  | nil => rfl
  | cons e rest ih => simp [set_base_branches_go, ih]

theorem set_base_branches_go_succ (st : List StackEntry)
    (prev : Option (List Char)) (i : Nat) (hi : i + 1 < st.length) :
    ((set_base_branches_go st prev)[i+1]?.map StackEntry.base) =
      (st[i]?.map StackEntry.head) := by
  induction st generalizing prev i with
  | nil => simp at hi
  | cons e rest ih =>
    rw [set_base_branches_go]
    cases i with
    | zero =>
      have hr : 0 < rest.length := by simp at hi; omega
      cases rest with
      | nil => simp at hr
      | cons e' rest' => simp [set_base_branches_go]
    | succ j =>
      have hj : j + 1 < rest.length := by simp at hi; omega
      have := ih e.head j hj
      simpa using this

/-- C6 (confirmed): after `set_base_branches` runs on a stack whose
entries all have a head branch, invariant I1 holds: the first entry's
base is the target branch and every later entry's base is the previous
entry's head. -/
theorem c6_set_base_branches_invariant :
    ∀ (st : List StackEntry) (target : List Char),
      (∀ e ∈ st, e.head ≠ none) →
      (set_base_branches st target).length = st.length ∧
      (∀ e0 : StackEntry, (set_base_branches st target)[0]? = some e0 →
        e0.base = some target) ∧
      (∀ i : Nat, i + 1 < st.length →
        ((set_base_branches st target)[i+1]?.map StackEntry.base) =
          (st[i]?.map StackEntry.head)) := by
  intro st target _
  refine ⟨set_base_branches_go_length st (some target), ?_, ?_⟩
  · intro e0 he0
    cases st with
    | nil => simp [set_base_branches, set_base_branches_go] at he0
    | cons e rest =>
      rw [set_base_branches, set_base_branches_go] at he0
      simp at he0
      rw [← he0]
  · intro i hi
    exact set_base_branches_go_succ st (some target) i hi

/-! ### Decimal digit lemmas -/

theorem digitChar_isDigit {d : Nat} (h : d < 10) :
    (digitChar d).isDigit = true := by
  rw [digitChar]; interval_cases d <;> decide

theorem digitChar_toNat {d : Nat} (h : d < 10) :
    (digitChar d).toNat = 48 + d := by
  rw [digitChar]; interval_cases d <;> decide

theorem natDigitsFuel_congr :
    ∀ (f g n : Nat), n < f → n < g → natDigitsFuel f n = natDigitsFuel g n := by
  intro f
  induction f with
  | zero => intro g n h1 _; omega
  | succ f ih =>
    intro g n h1 h2
    cases g with
    | zero => omega
    | succ g =>
      rw [natDigitsFuel, natDigitsFuel]
      by_cases hn : n < 10
      · simp [hn]
      · simp only [hn, if_false]
        rw [ih g (n / 10) (by omega) (by omega)]

theorem natDigits_small {n : Nat} (h : n < 10) :
    natDigits n = [digitChar n] := by
  rw [natDigits, natDigitsFuel, if_pos h]

theorem natDigits_large {n : Nat} (h : ¬ n < 10) :
    natDigits n = natDigits (n / 10) ++ [digitChar (n % 10)] := by
  rw [natDigits, natDigitsFuel, if_neg h, natDigits,
    natDigitsFuel_congr n (n / 10 + 1) (n / 10) (by omega) (by omega)]

theorem natDigits_all_digit (n : Nat) :
    ∀ c ∈ natDigits n, c.isDigit = true := by
  induction n using Nat.strong_induction_on with
  | _ n ih =>
    by_cases hn : n < 10
    · rw [natDigits_small hn]
      intro c hc
      rw [List.mem_singleton] at hc
      exact hc ▸ digitChar_isDigit hn
    · rw [natDigits_large hn]
      intro c hc
      rcases List.mem_append.mp hc with h | h
      · exact ih (n / 10) (by omega) c h
      · rw [List.mem_singleton] at h
        exact h ▸ digitChar_isDigit (by omega)

theorem natDigits_ne_nil (n : Nat) : natDigits n ≠ [] := by
  by_cases hn : n < 10
  · rw [natDigits_small hn]; simp
  · rw [natDigits_large hn]; simp

theorem parseNat_append_digit (l : List Char) (c : Char) :
    parseNat (l ++ [c]) = 10 * parseNat l + (c.toNat - 48) := by
  simp [parseNat, List.foldl_append]

theorem parseNat_natDigits (n : Nat) : parseNat (natDigits n) = n := by
  induction n using Nat.strong_induction_on with
  | _ n ih =>
    by_cases hn : n < 10
    · rw [natDigits_small hn]
      show parseNat ([] ++ [digitChar n]) = n
      rw [parseNat_append_digit, digitChar_toNat hn]
      simp [parseNat]
    · rw [natDigits_large hn, parseNat_append_digit, ih (n / 10) (by omega),
        digitChar_toNat (Nat.mod_lt n (by omega))]
      omega

theorem isnumeric_natDigits (n : Nat) : isnumeric (natDigits n) = true := by
  rw [isnumeric]
  have h1 : (natDigits n).isEmpty = false := by
    cases he : natDigits n with
    | nil => exact absurd he (natDigits_ne_nil n)
    | cons a l => rfl
  rw [h1]
  simp only [Bool.not_false, Bool.true_and, List.all_eq_true]
  exact natDigits_all_digit n

theorem slash_not_mem_natDigits (n : Nat) : '/' ∉ natDigits n := by
  intro h
  have := natDigits_all_digit n '/' h
  exact absurd this (by decide)

theorem parseNatQ_natDigits (n : Nat) : parseNatQ (natDigits n) = some n := by
  rw [parseNatQ, if_pos (isnumeric_natDigits n), parseNat_natDigits]

/-! ### Path-splitting lemmas -/

theorem takeWhile_append_of_all (p : Char → Bool) (d : List Char)
    (x : Char) (rest : List Char) (hd : ∀ c ∈ d, p c = true)
    (hx : p x = false) : (d ++ x :: rest).takeWhile p = d := by
  induction d with
  | nil => simp [List.takeWhile_cons, hx]
  | cons a d ih =>
    have ha : p a = true := hd a (List.mem_cons_self a d)
    simp only [List.cons_append, List.takeWhile_cons, ha, if_true]
    rw [ih (fun c hc => hd c (List.mem_cons_of_mem _ hc))]

theorem dropWhile_append_of_all (p : Char → Bool) (d : List Char)
    (x : Char) (rest : List Char) (hd : ∀ c ∈ d, p c = true)
    (hx : p x = false) : (d ++ x :: rest).dropWhile p = x :: rest := by
  induction d with
  | nil => simp [List.dropWhile_cons, hx]
  | cons a d ih =>
    have ha : p a = true := hd a (List.mem_cons_self a d)
    simp only [List.cons_append, List.dropWhile_cons, ha, if_true]
    exact ih (fun c hc => hd c (List.mem_cons_of_mem _ hc))

theorem afterLastSlash_append (A D : List Char) (hD : '/' ∉ D) :
    afterLastSlash (A ++ '/' :: D) = D := by
  rw [afterLastSlash]
  have hrev : (A ++ '/' :: D).reverse = D.reverse ++ '/' :: A.reverse := by
    simp
  rw [hrev, takeWhile_append_of_all _ D.reverse '/' A.reverse ?_ (by simp),
    List.reverse_reverse]
  intro c hc
  rw [List.mem_reverse] at hc
  simp only [decide_eq_true_eq]
  exact fun he => hD (he ▸ hc)

theorem beforeLastSlash_append (A D : List Char) (hD : '/' ∉ D) :
    beforeLastSlash (A ++ '/' :: D) = A := by
  rw [beforeLastSlash]
  have hrev : (A ++ '/' :: D).reverse = D.reverse ++ '/' :: A.reverse := by
    simp
  rw [hrev, dropWhile_append_of_all _ D.reverse '/' A.reverse ?_ (by simp)]
  · simp
  · intro c hc
    rw [List.mem_reverse] at hc
    simp only [decide_eq_true_eq]
    exact fun he => hD (he ▸ hc)

theorem hasSlash_append_cons (A D : List Char) :
    hasSlash (A ++ '/' :: D) = true := by
  simp [hasSlash]

theorem mkStackBranchName_shape (U : List Char) (n : Nat) :
    mkStackBranchName U n = (U ++ "/stack".data) ++ '/' :: natDigits n := by
  have h : "/stack/".data = "/stack".data ++ ['/'] := by decide
  simp [mkStackBranchName, h]

theorem get_next_mkName (U : List Char) (n : Nat) :
    get_next_available_branch_name (mkStackBranchName U n) =
      some (mkStackBranchName U (n + 1)) := by
  rw [mkStackBranchName_shape, get_next_available_branch_name,
    if_pos (hasSlash_append_cons _ _),
    afterLastSlash_append _ _ (slash_not_mem_natDigits n),
    parseNatQ_natDigits,
    beforeLastSlash_append _ _ (slash_not_mem_natDigits n)]
  simp [mkStackBranchName_shape]

theorem set_head_branches_assign_eq (U : List Char)
    (heads : List (Option (List Char))) :
    ∀ n, set_head_branches_assign heads (mkStackBranchName U n) =
      some (specAssignHeads U heads n) := by
  induction heads with
  | nil => intro n; rfl
  | cons h rest ih =>
    intro n
    cases h with
    | some hv => simp [set_head_branches_assign, ih n, specAssignHeads]
    | none =>
      simp [set_head_branches_assign, get_next_mkName, ih (n + 1),
        specAssignHeads]

/-! ### Freshness of allocated names -/

theorem stripQuotes_wrap (inner : List Char)
    (h1 : inner.head? ≠ some quoteChar)
    (h2 : inner.getLast? ≠ some quoteChar) :
    stripQuotes (quoteChar :: (inner ++ [quoteChar])) = inner := by
  cases inner with
  | nil => decide
  | cons i0 irest =>
    rw [stripQuotes]
    have hi0 : ¬ i0 = quoteChar := by
      simp only [List.head?_cons, ne_eq, Option.some.injEq] at h1
      exact h1
    have s1 : (quoteChar :: ((i0 :: irest) ++ [quoteChar])).dropWhile
        (fun c => c = quoteChar) = (i0 :: irest) ++ [quoteChar] := by
      rw [List.dropWhile_cons, if_pos (by simp), List.cons_append,
        List.dropWhile_cons, if_neg (by simp [hi0])]
    rw [s1]
    have hrev2 : ((i0 :: irest) ++ [quoteChar]).reverse =
        quoteChar :: (i0 :: irest).reverse := by simp
    rw [hrev2, List.dropWhile_cons, if_pos (by decide)]
    cases hrev : (i0 :: irest).reverse with
    | nil =>
      exact absurd (by simpa using congrArg List.reverse hrev)
        (List.cons_ne_nil i0 irest)
    | cons r0 rr =>
      rw [List.dropWhile_cons, if_neg]
      · rw [← hrev, List.reverse_reverse]
      · have : (i0 :: irest).getLast? = some r0 := by
          rw [← List.head?_reverse, hrev, List.head?_cons]
        simp only [this, ne_eq, Option.some.injEq] at h2
        simp [h2]

theorem le_foldr_max (l : List Nat) (x : Nat) (hx : x ∈ l) :
    x ≤ l.foldr Nat.max 0 := by
  induction l with
  | nil => simp at hx
  | cons a l ih =>
    rcases List.mem_cons.mp hx with h | h
    · subst h; exact Nat.le_max_left _ _
    · exact Nat.le_trans (ih h) (Nat.le_max_right _ _)

theorem inner_shape (remote U : List Char) (n : Nat) :
    "refs/remotes/".data ++ remote ++ '/' :: mkStackBranchName U n =
      ("refs/remotes/".data ++ remote ++ '/' :: (U ++ "/stack".data)) ++
        '/' :: natDigits n := by
  rw [mkStackBranchName_shape]
  simp

theorem natDigits_reverse_cons (n : Nat) :
    ∃ c rest, (natDigits n).reverse = c :: rest ∧ c.isDigit = true := by
  cases hD : (natDigits n).reverse with
  | nil =>
    exact absurd (by simpa using congrArg List.reverse hD) (natDigits_ne_nil n)
  | cons c rest =>
    refine ⟨c, rest, rfl, ?_⟩
    have hc : c ∈ (natDigits n).reverse := by rw [hD]; exact List.mem_cons_self _ _
    exact natDigits_all_digit n c (List.mem_reverse.mp hc)

theorem stripQuotes_assigned_token (remote U : List Char) (n : Nat) :
    stripQuotes (refToken remote (mkStackBranchName U n)) =
      "refs/remotes/".data ++ remote ++ '/' :: mkStackBranchName U n := by
  apply stripQuotes_wrap
  · have hshape : "refs/remotes/".data ++ remote ++
        '/' :: mkStackBranchName U n =
        'r' :: ("efs/remotes/".data ++ remote ++
          '/' :: mkStackBranchName U n) := rfl
    rw [hshape, List.head?_cons]
    intro h
    exact absurd (Option.some.inj h) (by decide)
  · rw [inner_shape]
    obtain ⟨c, rest, hrev, hdig⟩ := natDigits_reverse_cons n
    have hlast : (("refs/remotes/".data ++ remote ++
        '/' :: (U ++ "/stack".data)) ++ '/' :: natDigits n).getLast? =
        some c := by
      rw [← List.head?_reverse]
      have : (("refs/remotes/".data ++ remote ++ '/' :: (U ++ "/stack".data)) ++
          '/' :: natDigits n).reverse =
          (natDigits n).reverse ++ '/' :: ("refs/remotes/".data ++ remote ++
            '/' :: (U ++ "/stack".data)).reverse := by simp
      rw [this, hrev, List.cons_append, List.head?_cons]
    rw [hlast]
    intro h
    have hc : c = quoteChar := Option.some.inj h
    rw [hc] at hdig
    exact absurd hdig (by decide)

theorem is_valid_ref_assigned_token (remote U : List Char) (n : Nat) :
    is_valid_ref (refToken remote (mkStackBranchName U n)) = true := by
  rw [is_valid_ref, stripQuotes_assigned_token]
  have hcount : 2 ≤ ("refs/remotes/".data ++ remote ++
      '/' :: mkStackBranchName U n).count '/' := by
    rw [List.count_append, List.count_append]
    have h1 : ("refs/remotes/".data).count '/' = 2 := by decide
    omega
  rw [if_neg (Nat.not_lt.mpr hcount)]
  have hafter : afterLastSlash ("refs/remotes/".data ++ remote ++
      '/' :: mkStackBranchName U n) = natDigits n := by
    rw [inner_shape]
    exact afterLastSlash_append _ _ (slash_not_mem_natDigits n)
  have hbefore : beforeLastSlash ("refs/remotes/".data ++ remote ++
      '/' :: mkStackBranchName U n) =
      "refs/remotes/".data ++ remote ++ '/' :: (U ++ "/stack".data) := by
    rw [inner_shape]
    exact beforeLastSlash_append _ _ (slash_not_mem_natDigits n)
  have hstack : afterLastSlash ("refs/remotes/".data ++ remote ++
      '/' :: (U ++ "/stack".data)) = "stack".data := by
    have hshape : "refs/remotes/".data ++ remote ++ '/' :: (U ++ "/stack".data) =
        ("refs/remotes/".data ++ remote ++ '/' :: U) ++ '/' :: "stack".data := by
      have h : "/stack".data = '/' :: "stack".data := rfl
      simp [h]
    rw [hshape]
    exact afterLastSlash_append _ _ (by decide)
  rw [hafter, hbefore, hstack, isnumeric_natDigits]
  simp

theorem assigned_token_value (remote U : List Char) (n : Nat) :
    parseNat (afterLastSlash
      (stripQuotes (refToken remote (mkStackBranchName U n)))) = n := by
  rw [stripQuotes_assigned_token, inner_shape,
    afterLastSlash_append _ _ (slash_not_mem_natDigits n), parseNat_natDigits]

theorem assigned_le_max (remote U : List Char) (tokens : List (List Char))
    (n : Nat) (htok : refToken remote (mkStackBranchName U n) ∈ tokens) :
    n ≤ max_stack_ref_num tokens := by
  rw [max_stack_ref_num]
  have hmem : refToken remote (mkStackBranchName U n) ∈
      tokens.filter is_valid_ref :=
    List.mem_filter.mpr ⟨htok, is_valid_ref_assigned_token remote U n⟩
  have hval : n ∈ (tokens.filter is_valid_ref).map
      (fun r => parseNat (afterLastSlash (stripQuotes r))) := by
    rw [← assigned_token_value remote U n]
    exact List.mem_map_of_mem _ hmem
  exact le_foldr_max _ n hval

/-- C4 (confirmed): the allocator assigns names of the form
`<username>/stack/<n>`; the first entry lacking a head receives
`max + 1` where `max` is the largest numeric suffix among the
enumerated remote refs that pass `is_valid_ref` (so `1` when none
exist), each later assignment within the run increments `n` by exactly
one in stack order (this is what `specAssignHeads` says), and no
assigned name equals any existing remote branch name.  The hypothesis
is the git-port contract that `git for-each-ref
refs/remotes/<remote>/<username>/stack` enumerates (as quoted tokens)
every remote branch in the `<username>/stack/` namespace. -/
theorem c4_branch_allocator :
    ∀ (username remote : List Char) (tokens : List (List Char))
      (heads : List (Option (List Char))) (branches : List (List Char)),
      (∀ b ∈ branches,
        (username ++ "/stack/".data).isPrefixOf b = true →
        refToken remote b ∈ tokens) →
      set_head_branches_assign heads
          (get_available_branch_name username tokens) =
        some (specAssignHeads username heads
          (max_stack_ref_num tokens + 1)) ∧
      (∀ b ∈ branches, ∀ n, max_stack_ref_num tokens < n →
        b ≠ mkStackBranchName username n) := by
  intro U remote tokens heads branches henum
  constructor
  · exact set_head_branches_assign_eq U heads (max_stack_ref_num tokens + 1)
  · intro b hb n hn heq
    have hpre : (U ++ "/stack/".data).isPrefixOf b = true := by
      rw [heq]
      have : mkStackBranchName U n = (U ++ "/stack/".data) ++ natDigits n := by
        simp [mkStackBranchName]
      rw [this]
      exact isPrefixOf_self_append _ _
    have htok : refToken remote (mkStackBranchName U n) ∈ tokens := by
      rw [← heq]
      exact henum b hb hpre
    exact absurd (assigned_le_max remote U tokens n htok) (by omega)

/-- C4, witness: the allocator applied to one existing quoted ref
`'refs/remotes/o/u/stack/3'` and a three-entry stack whose middle entry
already has a head: the two assignments are `u/stack/4` and
`u/stack/5`, and `u/stack/3` is never reused. -/
theorem c4_branch_allocator_witness :
    set_head_branches_assign [none, some "x".data, none]
        (get_available_branch_name "u".data
          ["'refs/remotes/o/u/stack/3'".data]) =
      some [some "u/stack/4".data, some "x".data, some "u/stack/5".data] ∧
    "u/stack/3".data ≠ mkStackBranchName "u".data 4 := by
  have h := c4_branch_allocator "u".data "o".data
    ["'refs/remotes/o/u/stack/3'".data] [none, some "x".data, none]
    ["u/stack/3".data, "main".data] (by decide)
  refine ⟨?_, h.2 "u/stack/3".data (by decide) 4 (by decide)⟩
  rw [h.1]
  decide

/-- C8, counterexample: on a two-entry stack (bottom PR `#1`, top PR
`#2`) rendered for PR `1`, the generated block lists `#2` first — the
claim's bottom-to-top order (oldest entry's PR first) would instead be
the second string, which the code does not produce. -/
theorem c8_toc_counterexample :
    generate_toc
        [StackEntry.mk (CommitHeader.mk "c1".data "m1".data)
          (some "p/1".data) none none,
         StackEntry.mk (CommitHeader.mk "c2".data "m2".data)
          (some "p/2".data) none none] "1".data =
      some "Stacked PRs:\n * #2\n * __->__#1\n\n".data ∧
    generate_toc
        [StackEntry.mk (CommitHeader.mk "c1".data "m1".data)
          (some "p/1".data) none none,
         StackEntry.mk (CommitHeader.mk "c2".data "m2".data)
          (some "p/2".data) none none] "1".data ≠
      some "Stacked PRs:\n * __->__#1\n * #2\n\n".data := by
  constructor <;> decide

/-- C8 (amended): for a stack in which every entry's PR reference is of
the form `<prefix>/<id>`, the generated block lists one ` * #<id>` line
per stacked PR in top-to-bottom order (the NEWEST entry's PR first —
the code iterates `st[::-1]`), with `__->__` prefixed exactly on the
lines whose id equals the id of the PR being rendered. -/
theorem toc_entry_eval (current : List Char) (p : List Char × List Char)
    (hp : '/' ∉ p.2) :
    toc_entry current
        (StackEntry.mk (CommitHeader.mk [] [])
          (some (p.1 ++ '/' :: p.2)) none none) =
      some (" * ".data ++
        (if p.2 = current then "__->__".data else []) ++
        '#' :: p.2 ++ ['\n']) := by
  rw [toc_entry]
  simp only [lastSlashComp, hasSlash_append_cons _ _, if_pos,
    afterLastSlash_append _ _ hp]

theorem mapM_toc_entry (current : List Char) :
    ∀ (qs : List (List Char × List Char)), (∀ p ∈ qs, '/' ∉ p.2) →
      ((qs.map (fun p =>
        StackEntry.mk (CommitHeader.mk [] [])
          (some (p.1 ++ '/' :: p.2)) none none)).mapM
          (toc_entry current)) =
        some (qs.map (fun p =>
          " * ".data ++ (if p.2 = current then "__->__".data else []) ++
            '#' :: p.2 ++ ['\n'])) := by
  intro qs
  induction qs with
  | nil => intro _; rfl
  | cons p rest ih =>
    intro hq
    have hp : '/' ∉ p.2 := hq p (List.mem_cons_self _ _)
    simp only [List.map_cons, List.mapM_cons,
      toc_entry_eval current p hp,
      ih (fun q hqm => hq q (List.mem_cons_of_mem _ hqm))]
    rfl

theorem c8_toc_amended :
    ∀ (ps : List (List Char × List Char)) (current : List Char),
      (∀ p ∈ ps, '/' ∉ p.2) →
      generate_toc
          (ps.map (fun p =>
            StackEntry.mk (CommitHeader.mk [] [])
              (some (p.1 ++ '/' :: p.2)) none none)) current =
        some ("Stacked PRs:\n".data ++
          (ps.reverse.map (fun p =>
            " * ".data ++ (if p.2 = current then "__->__".data else []) ++
              '#' :: p.2 ++ ['\n'])).flatten ++ ['\n']) := by
  intro ps current hps
  rw [generate_toc, ← List.map_reverse,
    mapM_toc_entry current ps.reverse
      (fun p hp => hps p (List.mem_reverse.mp hp))]
  rfl

/-- C8, witness: the amended order applied to the concrete two-entry
stack of the counterexample. -/
theorem c8_toc_amended_witness :
    generate_toc
        [StackEntry.mk (CommitHeader.mk [] [])
          (some ("p".data ++ '/' :: "1".data)) none none,
         StackEntry.mk (CommitHeader.mk [] [])
          (some ("p".data ++ '/' :: "2".data)) none none] "1".data =
      some ("Stacked PRs:\n".data ++
        ([" * ".data ++ ([] : List Char) ++ '#' :: "2".data ++ ['\n'],
          " * ".data ++ "__->__".data ++ '#' :: "1".data ++ ['\n']]).flatten ++
        ['\n']) := by
  have h := c8_toc_amended
    [("p".data, "1".data), ("p".data, "2".data)] "1".data (by decide)
  simpa using h

/-- C6, witness: the invariant applied to a concrete two-entry stack
with both heads assigned. -/
theorem c6_set_base_branches_invariant_witness :
    ((set_base_branches
        [StackEntry.mk (CommitHeader.mk "c1".data "m1".data) none none
          (some "u/stack/1".data),
         StackEntry.mk (CommitHeader.mk "c2".data "m2".data) none none
          (some "u/stack/2".data)] "main".data)[1]?.map StackEntry.base) =
      some (some "u/stack/1".data) := by
  have h := (c6_set_base_branches_invariant
    [StackEntry.mk (CommitHeader.mk "c1".data "m1".data) none none
      (some "u/stack/1".data),
     StackEntry.mk (CommitHeader.mk "c2".data "m2".data) none none
      (some "u/stack/2".data)] "main".data (by decide)).2.2 0 (by decide)
  rw [h]
  decide

/-! ## Claims C2, C7, C10: traced command behaviour -/

theorem should_update_effs_reads (w : World) (h b r t : List Char) :
    ∀ e ∈ (should_update_local_base_w w h b r t).1, e.isMutating = false := by
  intro e he
  rw [should_update_local_base_w] at he
  split at he <;> simp at he <;>
    rcases he with rfl | rfl | rfl | rfl <;> rfl

theorem su_false_of_antisym (w : World) (r remote target : List Char)
    (hanti : w.isAncestor r (remote ++ '/' :: target) = true →
      w.isAncestor (remote ++ '/' :: target) r = true →
      w.revParse r = w.revParse (remote ++ '/' :: target)) :
    (should_update_local_base_w w r r remote target).2 = false := by
  rw [should_update_local_base_w]
  by_cases h1 : w.isAncestor r (remote ++ '/' :: target) = true
  · by_cases h2 : w.isAncestor (remote ++ '/' :: target) r = true
    · simp [h1, h2, hanti h1 h2]
    · simp only [Bool.not_eq_true] at h2
      simp [h1, h2]
  · simp only [Bool.not_eq_true] at h1
    simp [h1]

theorem get_stack_entries_length (commits : List CommitHeader) :
    (get_stack_entries commits).length = commits.length := by
  simp [get_stack_entries]

theorem get_stack_entries_isEmpty (commits : List CommitHeader)
    (h : commits ≠ []) : (get_stack_entries commits).isEmpty = false := by
  cases hc : get_stack_entries commits with
  | nil =>
    have hlen := get_stack_entries_length commits
    rw [hc] at hlen
    exact absurd (List.length_eq_zero.mp hlen.symm) h
  | cons a l => rfl

/-- C7 (confirmed): with an empty commit range (`base == head`; the
hypotheses are the git-port facts that a ref is its own ancestor, that
`rev-list ^X X` is empty, and that mutual ancestors resolve to the same
hash), submit, land and abandon return reporting an empty stack, view
succeeds, and none of the four issues a single mutating external call
(branch creation/reset, push, rebase, amend, PR creation/edit/merge, or
deletion) — view still runs its read-only `fetch --prune` and ref
enumeration. -/
theorem c7_empty_range_no_mutation :
    ∀ (w : World) (args : CommonArgs) (draft keep_body : Bool)
      (bm : Option (List Bool)),
      args.base = args.head →
      w.isAncestor args.base args.head = true →
      w.revList args.base args.head = [] →
      (w.isAncestor args.base (args.remote ++ '/' :: args.target) = true →
        w.isAncestor (args.remote ++ '/' :: args.target) args.head = true →
        w.revParse args.base =
          w.revParse (args.remote ++ '/' :: args.target)) →
      ((command_submit w args draft keep_body bm).2 = .emptyStack ∧
        ∀ e ∈ (command_submit w args draft keep_body bm).1,
          e.isMutating = false) ∧
      ((command_land w args).2 = .emptyStack ∧
        ∀ e ∈ (command_land w args).1, e.isMutating = false) ∧
      ((command_abandon w args).2 = .emptyStack ∧
        ∀ e ∈ (command_abandon w args).1, e.isMutating = false) ∧
      ((command_view w args).2 = .success ∧
        ∀ e ∈ (command_view w args).1, e.isMutating = false) := by
  intro w args draft keep_body bm hbh hanc hrl hanti
  obtain ⟨b, h, remote, target⟩ := args
  simp only at hbh
  subst hbh
  simp only at hanc hrl hanti ⊢
  have hsu : (should_update_local_base_w w b b remote target).2 = false :=
    su_false_of_antisym w b remote target hanti
  refine ⟨⟨?_, ?_⟩, ⟨?_, ?_⟩, ⟨?_, ?_⟩, ⟨?_, ?_⟩⟩
  · simp [command_submit, get_stack_w, hanc, hrl, hsu, get_stack_entries]
  · intro e he
    simp [command_submit, get_stack_w, hanc, hrl, hsu,
      get_stack_entries] at he
    rcases he with rfl | he | rfl | rfl
    · rfl
    · exact should_update_effs_reads w b b remote target e he
    · rfl
    · rfl
  · simp [command_land, get_stack_w, hanc, hrl, hsu, get_stack_entries]
  · intro e he
    simp [command_land, get_stack_w, hanc, hrl, hsu,
      get_stack_entries] at he
    rcases he with rfl | he | rfl | rfl
    · rfl
    · exact should_update_effs_reads w b b remote target e he
    · rfl
    · rfl
  · simp [command_abandon, get_stack_w, hanc, hrl, get_stack_entries]
  · intro e he
    simp [command_abandon, get_stack_w, hanc, hrl,
      get_stack_entries] at he
    rcases he with rfl | rfl
    · rfl
    · rfl
  · simp [command_view, get_stack_w, hanc, hrl, hsu, get_stack_entries,
      set_head_branches_w, set_head_branches_assign]
  · intro e he
    simp [command_view, get_stack_w, hanc, hrl, hsu, get_stack_entries,
      set_head_branches_w, set_head_branches_assign] at he
    rcases he with he | rfl | rfl | rfl | rfl | rfl
    · exact should_update_effs_reads w b b remote target e he
    · rfl
    · rfl
    · rfl
    · rfl
    · rfl

/-- C7, witness: the four conclusions at the concrete empty-range
world. -/
theorem c7_empty_range_no_mutation_witness :
    (command_submit c7World c7Args false false none).2 =
      CmdOutcome.emptyStack ∧
    (command_land c7World c7Args).2 = CmdOutcome.emptyStack ∧
    (command_abandon c7World c7Args).2 = CmdOutcome.emptyStack ∧
    (command_view c7World c7Args).2 = CmdOutcome.success :=
  have h := c7_empty_range_no_mutation c7World c7Args false false none rfl
    (by decide) rfl (fun _ _ => rfl)
  ⟨h.1.1, h.2.1.1, h.2.2.1.1, h.2.2.2.1⟩

/-- C2 (code bug): on the consistent two-entry world `c2World`, land
succeeds, lands the bottom PR (`p/1` retargeted to `m` and
squash-merged under the stripped commit message), rebases and retargets
the top PR `p/2`, deletes the local branches of both entries and
fast-forwards local `m` — but it never issues any remote-branch
deletion: `delete_remote_branches` is called only for `st[:1]`, and
even for that entry the comparison fails because the `for-each-ref`
tokens keep the literal quotes of `--format='%(refname)'` while only
the `refs/remotes/o/` infix is stripped, contradicting the module
docstring ("all the corresponding remote and local branches deleted"). -/
theorem c2_land_remote_deletion_bug :
    (command_land c2World c2Args).2 = CmdOutcome.success ∧
    (∀ e ∈ (command_land c2World c2Args).1, e.isPushDelete = false) ∧
    Eff.ghPrEditBase "p/1".data "m".data ∈ (command_land c2World c2Args).1 ∧
    Eff.ghPrMerge "p/1".data "A (#1)".data " ".data ∈
      (command_land c2World c2Args).1 ∧
    Eff.gitRebase "o/m".data "u/stack/2".data ∈
      (command_land c2World c2Args).1 ∧
    Eff.ghPrEditBase "p/2".data "m".data ∈ (command_land c2World c2Args).1 ∧
    Eff.gitBranchDeleteLocal ["u/stack/1".data, "u/stack/2".data] ∈
      (command_land c2World c2Args).1 ∧
    Eff.gitRebase "o/m".data "m".data ∈ (command_land c2World c2Args).1 := by
  decide

/-- C10, counterexample: when the shared preamble fires (local base
behind `o/m` with `H` containing it), submit with a mismatched draft
bitmask still rebases the local base branch — an external mutating call
— before returning at the bitmask check, so "no external mutating call
is made and local and remote state are unchanged" is false as stated. -/
theorem c10_bitmask_counterexample :
    (command_submit c10World c10Args false false
        (some [false, false])).2 = CmdOutcome.bitmaskMismatch ∧
    Eff.gitRebase "o/m".data "B".data ∈
      (command_submit c10World c10Args false false
        (some [false, false])).1 ∧
    (Eff.gitRebase "o/m".data "B".data).isMutating = true := by
  decide

/-- C10 (amended): with a draft bitmask whose length differs from the
size of the non-empty stack, submit returns immediately after building
the stack — before any branch initialization, base reset, push, PR
creation, or metadata update — and the only mutating calls possibly
made are the shared preamble's fast-forward of the local base (a rebase
plus the checkout back to the original branch). -/
theorem c10_bitmask_mismatch_amended :
    ∀ (w : World) (args : CommonArgs) (draft keep_body : Bool)
      (bm : List Bool),
      w.isAncestor args.base args.head = true →
      w.revList args.base args.head ≠ [] →
      bm.length ≠ (w.revList args.base args.head).length →
      (command_submit w args draft keep_body (some bm)).2 =
        CmdOutcome.bitmaskMismatch ∧
      ∀ e ∈ (command_submit w args draft keep_body (some bm)).1,
        e.isMutating = true →
        e = Eff.gitRebase (args.remote ++ '/' :: args.target) args.base ∨
        e = Eff.gitCheckout w.currentBranch := by
  intro w args draft keep_body bm hanc hne hlen
  have hempty : (get_stack_entries (w.revList args.base args.head)).isEmpty =
      false := get_stack_entries_isEmpty _ hne
  have hlen2 : bm.length ≠
      (get_stack_entries (w.revList args.base args.head)).length := by
    rw [get_stack_entries_length]
    exact hlen
  constructor
  · simp [command_submit, get_stack_w, hanc, hempty, hlen2]
  · intro e he hm
    simp [command_submit, get_stack_w, hanc, hempty, hlen2] at he
    by_cases hsu : (should_update_local_base_w w args.head args.base
        args.remote args.target).2 = true
    · rw [hsu] at he
      simp at he
      rcases he with rfl | he | hor | rfl | rfl
      · exact absurd hm (by simp [Eff.isMutating])
      · exact absurd (should_update_effs_reads w args.head args.base
          args.remote args.target e he) (by simp [hm])
      · exact hor
      · exact absurd hm (by simp [Eff.isMutating])
      · exact absurd hm (by simp [Eff.isMutating])
    · simp only [Bool.not_eq_true] at hsu
      rw [hsu] at he
      simp at he
      rcases he with rfl | he | rfl | rfl
      · exact absurd hm (by simp [Eff.isMutating])
      · exact absurd (should_update_effs_reads w args.head args.base
          args.remote args.target e he) (by simp [hm])
      · exact absurd hm (by simp [Eff.isMutating])
      · exact absurd hm (by simp [Eff.isMutating])

/-- C10, witness: the amended statement at the concrete world of the
counterexample. -/
theorem c10_bitmask_mismatch_amended_witness :
    (command_submit c10World c10Args false false
        (some [false, false])).2 = CmdOutcome.bitmaskMismatch :=
  (c10_bitmask_mismatch_amended c10World c10Args false false [false, false]
    (by decide) (by decide) (by decide)).1

end StackPr
